import Mathlib

/-!
# SAM-BCADA: ledger contract and storage node

A shallow embedding of `chaincode-go/sambcada.go` (the Fabric contract that
anchors crypto anchors, verification logs, block tags, audit results and
download logs in the world state) and of `app/storage-node/main.go` (the
in-memory block store), followed by theorems about key ranges, overwriting,
latest-status selection and write-once anchors.

Conventions of the embedding of the contract:

* a Go `string` is the sequence of its bytes (`GoString`); comparison of Go
  strings and the key order of the world state are both lexicographic on the
  bytes, written `strLt` and `strLe` here; a string literal of the source is
  written `ascii "..."`;
* a Go `int` is an `Int`;
* the bytes stored under a key are always the output of `json.Marshal` on one
  of the record structs, so a stored value is kept as the JSON object it
  encodes (`JObj`); such an encoding is never the empty byte string. The
  encoder writes U+FFFD for every byte of a Go string that is not part of a
  valid UTF-8 encoding (`coerceUTF8`), so a string member of a stored object
  can differ from the Go string it was made from, while a key built with
  `fmt.Sprintf` keeps the bytes as they are;
* `nowISO()` reads the clock, so every operation that calls it takes the
  string it returned as the extra argument `now`;
* the calls to the ledger themselves succeed: the errors an operation returns
  are the ones it raises itself;
* an operation is a function from the ledger before the transaction to either
  an error or the ledger after it; a transaction that returns an error commits
  nothing.
-/

deriving instance DecidableEq for Except

namespace Chaincode

/-! ## Go strings -/

/-- A Go string: the sequence of its bytes, each a number below 256. -/
abbrev GoString := List Nat

/-- The bytes of a string literal of the source, of a decimal number or of a
clock reading: one byte per character, all of them ASCII. -/
def ascii (s : String) : GoString := s.toList.map Char.toNat

/-- Go's `a < b` on strings, also the key order of the world state: the
lexicographic order of the bytes. -/
abbrev strLt (a b : GoString) : Prop := a < b

/-- Go's `a <= b` on strings. -/
abbrev strLe (a b : GoString) : Prop := ¬ strLt b a

/-- The length `utf8.DecodeRuneInString` finds for the encoding at the head of a
non-empty string: 1 for an ASCII byte, 2 to 4 for a lead byte followed by the
continuation bytes its range asks for (overlong forms, surrogates and values
above U+10FFFF excluded), and `none` when it returns `RuneError` with size 1,
that is when the head byte is not the start of a valid encoding. -/
def runeLen : GoString → Option Nat
  | [] => none
  | p0 :: rest =>
    if p0 < 0x80 then some 1
    else if p0 < 0xC2 then none
    else if p0 < 0xE0 then
      match rest with
      | b1 :: _ => if 0x80 ≤ b1 ∧ b1 ≤ 0xBF then some 2 else none
      | _ => none
    else if p0 < 0xF0 then
      match rest with
      | b1 :: b2 :: _ =>
        if (if p0 = 0xE0 then 0xA0 else 0x80) ≤ b1 ∧ b1 ≤ (if p0 = 0xED then 0x9F else 0xBF) ∧
            0x80 ≤ b2 ∧ b2 ≤ 0xBF then some 3 else none
      | _ => none
    else if p0 < 0xF5 then
      match rest with
      | b1 :: b2 :: b3 :: _ =>
        if (if p0 = 0xF0 then 0x90 else 0x80) ≤ b1 ∧ b1 ≤ (if p0 = 0xF4 then 0x8F else 0xBF) ∧
            0x80 ≤ b2 ∧ b2 ≤ 0xBF ∧ 0x80 ≤ b3 ∧ b3 ≤ 0xBF then some 4 else none
      | _ => none
    else none

/-- The loop of the JSON string encoder, read back by the decoder: `pending`
bytes of the encoding being copied are still to come; at the start of an
encoding the bytes of a valid one are copied, and a byte that starts none is
replaced by the three bytes of U+FFFD. -/
def coerceAux : Nat → GoString → GoString
  | _, [] => []
  | pending + 1, b :: rest => b :: coerceAux pending rest
  | 0, b :: rest =>
    match runeLen (b :: rest) with
    | some n => b :: coerceAux (n - 1) rest
    | none => 0xEF :: 0xBF :: 0xBD :: coerceAux 0 rest

/-- What `json.Unmarshal` reads back for a Go string that `json.Marshal` encoded:
the string with every byte that is not part of a valid UTF-8 encoding replaced by
U+FFFD. It is the string itself exactly when the string is valid UTF-8. -/
def coerceUTF8 (s : GoString) : GoString := coerceAux 0 s

/-! ## JSON objects -/

/-- The JSON values that occur as members of the contract's records. -/
inductive JVal where
  | str (s : GoString)
  | num (n : Int)
  | bool (b : Bool)
deriving DecidableEq, Repr

/-- A JSON object: member names with their values, in the order of encoding. -/
abbrev JObj := List (String × JVal)

/-- Decoding a member into a Go `string` field: a missing member leaves the zero
value, a member of another JSON type is a decoding error. -/
def fieldStr (o : JObj) (name : String) : Except GoString GoString :=
  match o.lookup name with
  | none => .ok []
  | some (.str s) => .ok s
  | some _ =>
    .error (ascii ("json: cannot unmarshal into Go struct field " ++ name ++ " of type string"))

/-- Decoding a member into a Go `int` field. -/
def fieldInt (o : JObj) (name : String) : Except GoString Int :=
  match o.lookup name with
  | none => .ok 0
  | some (.num n) => .ok n
  | some _ =>
    .error (ascii ("json: cannot unmarshal into Go struct field " ++ name ++ " of type int"))

/-- Decoding a member into a Go `bool` field. -/
def fieldBool (o : JObj) (name : String) : Except GoString Bool :=
  match o.lookup name with
  | none => .ok false
  | some (.bool b) => .ok b
  | some _ =>
    .error (ascii ("json: cannot unmarshal into Go struct field " ++ name ++ " of type bool"))

/-! ## Data models -/

structure CryptoAnchor where
  UID : GoString
  DFPEnc : GoString
  Sign : GoString
  Manufacturer : GoString
  VerifierPKPem : GoString
  CreatedAt : GoString
deriving DecidableEq, Repr

structure VerificationRecord where
  ID : GoString
  UID : GoString
  VerifierID : GoString
  Status : GoString
  Comment : GoString
  Timestamp : GoString
deriving DecidableEq, Repr

structure TagRecord where
  ID : GoString
  UID : GoString
  FileID : GoString
  BlockIndex : Int
  TagValue : GoString
  CreatedAt : GoString
deriving DecidableEq, Repr

structure AuditRecord where
  ID : GoString
  FileID : GoString
  UID : GoString
  ProofHash : GoString
  Mu : GoString
  Status : GoString
  Timestamp : GoString
deriving DecidableEq, Repr

structure DownloadRecord where
  ID : GoString
  FileID : GoString
  UID : GoString
  UserID : GoString
  Allowed : Bool
  RequestHash : GoString
  Timestamp : GoString
deriving DecidableEq, Repr

/-- One element of the `tagsJson` array. -/
structure tagInput where
  BlockIndex : Int
  TagValue : GoString
deriving DecidableEq, Repr

/-! ## `json.Marshal` and `json.Unmarshal` on the records (member names are the
`json:"..."` tags of the struct fields; a string member holds the field coerced
to valid UTF-8, as the encoder writes it and the decoder reads it back) -/

def marshalAnchor (a : CryptoAnchor) : JObj :=
  [("uid", .str (coerceUTF8 a.UID)),
   ("dfpEnc", .str (coerceUTF8 a.DFPEnc)),
   ("sign", .str (coerceUTF8 a.Sign)),
   ("manufacturer", .str (coerceUTF8 a.Manufacturer)),
   ("verifierPk", .str (coerceUTF8 a.VerifierPKPem)),
   ("createdAt", .str (coerceUTF8 a.CreatedAt))]

def marshalVerification (r : VerificationRecord) : JObj :=
  [("id", .str (coerceUTF8 r.ID)),
   ("uid", .str (coerceUTF8 r.UID)),
   ("verifierId", .str (coerceUTF8 r.VerifierID)),
   ("status", .str (coerceUTF8 r.Status)),
   ("comment", .str (coerceUTF8 r.Comment)),
   ("timestamp", .str (coerceUTF8 r.Timestamp))]

def marshalTag (t : TagRecord) : JObj :=
  [("id", .str (coerceUTF8 t.ID)),
   ("uid", .str (coerceUTF8 t.UID)),
   ("fileId", .str (coerceUTF8 t.FileID)),
   ("blockIndex", .num t.BlockIndex),
   ("tagValue", .str (coerceUTF8 t.TagValue)),
   ("createdAt", .str (coerceUTF8 t.CreatedAt))]

def marshalAudit (r : AuditRecord) : JObj :=
  [("id", .str (coerceUTF8 r.ID)),
   ("fileId", .str (coerceUTF8 r.FileID)),
   ("uid", .str (coerceUTF8 r.UID)),
   ("proofHash", .str (coerceUTF8 r.ProofHash)),
   ("mu", .str (coerceUTF8 r.Mu)),
   ("status", .str (coerceUTF8 r.Status)),
   ("timestamp", .str (coerceUTF8 r.Timestamp))]

def marshalDownload (r : DownloadRecord) : JObj :=
  [("id", .str (coerceUTF8 r.ID)),
   ("fileId", .str (coerceUTF8 r.FileID)),
   ("uid", .str (coerceUTF8 r.UID)),
   ("userId", .str (coerceUTF8 r.UserID)),
   ("allowed", .bool r.Allowed),
   ("requestHash", .str (coerceUTF8 r.RequestHash)),
   ("timestamp", .str (coerceUTF8 r.Timestamp))]

def unmarshalVerification (o : JObj) : Except GoString VerificationRecord := do
  let id ← fieldStr o "id"
  let uid ← fieldStr o "uid"
  let verifierId ← fieldStr o "verifierId"
  let status ← fieldStr o "status"
  let comment ← fieldStr o "comment"
  let timestamp ← fieldStr o "timestamp"
  return { ID := id, UID := uid, VerifierID := verifierId, Status := status,
           Comment := comment, Timestamp := timestamp }

def unmarshalTag (o : JObj) : Except GoString TagRecord := do
  let id ← fieldStr o "id"
  let uid ← fieldStr o "uid"
  let fileId ← fieldStr o "fileId"
  let blockIndex ← fieldInt o "blockIndex"
  let tagValue ← fieldStr o "tagValue"
  let createdAt ← fieldStr o "createdAt"
  return { ID := id, UID := uid, FileID := fileId, BlockIndex := blockIndex,
           TagValue := tagValue, CreatedAt := createdAt }

def unmarshalAudit (o : JObj) : Except GoString AuditRecord := do
  let id ← fieldStr o "id"
  let fileId ← fieldStr o "fileId"
  let uid ← fieldStr o "uid"
  let proofHash ← fieldStr o "proofHash"
  let mu ← fieldStr o "mu"
  let status ← fieldStr o "status"
  let timestamp ← fieldStr o "timestamp"
  return { ID := id, FileID := fileId, UID := uid, ProofHash := proofHash, Mu := mu,
           Status := status, Timestamp := timestamp }

def unmarshalDownload (o : JObj) : Except GoString DownloadRecord := do
  let id ← fieldStr o "id"
  let fileId ← fieldStr o "fileId"
  let uid ← fieldStr o "uid"
  let userId ← fieldStr o "userId"
  let allowed ← fieldBool o "allowed"
  let requestHash ← fieldStr o "requestHash"
  let timestamp ← fieldStr o "timestamp"
  return { ID := id, FileID := fileId, UID := uid, UserID := userId, Allowed := allowed,
           RequestHash := requestHash, Timestamp := timestamp }

/-! ## The world state -/

/-- The world state: the stored keys with their values. `PutState` keeps the
keys in increasing order, the order in which a range scan yields them. -/
abbrev Ledger := List (GoString × JObj)

/-- Modelled from the spec: the ledger's `get(key) -> value|absent`
(`ctx.GetStub().GetState`). -/
def GetState (l : Ledger) (key : GoString) : Option JObj :=
  match l with
  | [] => none
  | (k, v) :: rest => if k = key then some v else GetState rest key

/-- Modelled from the spec: the ledger's `put(key, value)`
(`ctx.GetStub().PutState`): the value of an existing key is replaced, a new key
is inserted at its place in the key order. -/
def PutState (l : Ledger) (key : GoString) (value : JObj) : Ledger :=
  match l with
  | [] => [(key, value)]
  | (k, v) :: rest =>
    if strLt key k then (key, value) :: (k, v) :: rest
    else if key = k then (key, value) :: rest
    else (k, v) :: PutState rest key value

/-- The key `k` lies in the range of a scan from `startKey` (inclusive) to
`endKey` (exclusive). -/
def inRange (startKey endKey k : GoString) : Prop := strLe startKey k ∧ strLt k endKey

instance (startKey endKey k : GoString) : Decidable (inRange startKey endKey k) := by
  unfold inRange; infer_instance

/-- Modelled from the spec: the ledger's `rangeScan(startKey, endKey)`
(`ctx.GetStub().GetStateByRange`): the entries with `startKey <= key < endKey`,
in key order. -/
def GetStateByRange (l : Ledger) (startKey endKey : GoString) : List (GoString × JObj) :=
  l.filter (fun e => decide (inRange startKey endKey e.1))

/-! ## Helpers -/

/-- The test `b != nil && len(b) > 0` on the value read: a stored value is the
JSON text of an object, which is never empty, so the test is whether the key is
present. -/
def assetExists (l : Ledger) (key : GoString) : Bool :=
  match GetState l key with
  | none => false
  | some _ => true

/-- The key `fmt.Sprintf("VER_%s_%s", uid, ts)`. -/
def verKey (uid ts : GoString) : GoString := ascii "VER_" ++ uid ++ ascii "_" ++ ts

/-- The key `fmt.Sprintf("TAG_%s_%d", fileID, blockIndex)`. -/
def tagKey (fileID : GoString) (blockIndex : Int) : GoString :=
  ascii "TAG_" ++ fileID ++ ascii "_" ++ ascii (toString blockIndex)

/-- The key `fmt.Sprintf("AUDIT_%s_%s", fileID, ts)`. -/
def auditKey (fileID ts : GoString) : GoString := ascii "AUDIT_" ++ fileID ++ ascii "_" ++ ts

/-- The key `fmt.Sprintf("DL_%s_%s_%s", fileID, userID, ts)`. -/
def dlKey (fileID userID ts : GoString) : GoString :=
  ascii "DL_" ++ fileID ++ ascii "_" ++ userID ++ ascii "_" ++ ts

/-! ## 1. Crypto anchor -/

def CreateCryptoAnchor (l : Ledger)
    (uid dfpEncBase64 signBase64 manufacturerID verifierPKPem : GoString) (now : GoString) :
    Except GoString Ledger :=
  let key := ascii "ANCHOR_" ++ uid
  if assetExists l key then
    .error (ascii "anchor already exists for UID " ++ uid)
  else
    let anchor : CryptoAnchor :=
      { UID := uid, DFPEnc := dfpEncBase64, Sign := signBase64, Manufacturer := manufacturerID,
        VerifierPKPem := verifierPKPem, CreatedAt := now }
    .ok (PutState l key (marshalAnchor anchor))

def GetCryptoAnchor (l : Ledger) (uid : GoString) : Except GoString JObj :=
  let key := ascii "ANCHOR_" ++ uid
  match GetState l key with
  | none => .error (ascii "anchor not found for UID " ++ uid)
  | some b => .ok b

/-! ## 2. Verification logs -/

def RecordVerificationResult (l : Ledger) (uid verifierID status comment : GoString)
    (now : GoString) : Except GoString Ledger :=
  if status ≠ ascii "AUTHENTIC" ∧ status ≠ ascii "COUNTERFEIT" then
    .error (ascii "status must be AUTHENTIC or COUNTERFEIT")
  else
    let anchorKey := ascii "ANCHOR_" ++ uid
    if !assetExists l anchorKey then
      .error (ascii "no anchor exists for UID " ++ uid)
    else
      let ts := now
      let id := verKey uid ts
      let rec_ : VerificationRecord :=
        { ID := id, UID := uid, VerifierID := verifierID, Status := status, Comment := comment,
          Timestamp := ts }
      .ok (PutState l id (marshalVerification rec_))

/-- The loop of `GetVerificationHistory` over the entries of the scan. -/
def verificationLoop (uid : GoString) :
    List (GoString × JObj) → List VerificationRecord → Except GoString (List VerificationRecord)
  | [], list => .ok list
  | res :: rest, list =>
    match unmarshalVerification res.2 with
    | .error e => .error e
    | .ok r => if r.UID = uid then verificationLoop uid rest (list ++ [r])
               else verificationLoop uid rest list

/-- The records are returned as decoded; the caller receives their JSON array. -/
def GetVerificationHistory (l : Ledger) (uid : GoString) :
    Except GoString (List VerificationRecord) :=
  verificationLoop uid (GetStateByRange l (ascii "VER_") (ascii "VES_")) []

/-! ## 3. Tags for encrypted blocks -/

/-- The loop of `StoreBlockTags` over the decoded `tagsJson`. -/
def storeTagsLoop (uid fileID now : GoString) : List tagInput → Ledger → Ledger
  | [], l => l
  | t :: ts, l =>
    let id := tagKey fileID t.BlockIndex
    let tag : TagRecord :=
      { ID := id, UID := uid, FileID := fileID, BlockIndex := t.BlockIndex,
        TagValue := t.TagValue, CreatedAt := now }
    storeTagsLoop uid fileID now ts (PutState l id (marshalTag tag))

/-- The argument `tagsJson` is given by what `json.Unmarshal` makes of it: `none`
when it does not decode into `[]tagInput`. -/
def StoreBlockTags (l : Ledger) (uid fileID : GoString) (tagsJson : Option (List tagInput))
    (now : GoString) : Except GoString Ledger :=
  match tagsJson with
  | none => .error (ascii "invalid tagsJson")
  | some tags => .ok (storeTagsLoop uid fileID now tags l)

/-- The loop of `GetTagsForFile` over the entries of the scan. -/
def tagsLoop (fileID : GoString) :
    List (GoString × JObj) → List TagRecord → Except GoString (List TagRecord)
  | [], tags => .ok tags
  | res :: rest, tags =>
    match unmarshalTag res.2 with
    | .error e => .error e
    | .ok tr => if tr.FileID = fileID then tagsLoop fileID rest (tags ++ [tr])
                else tagsLoop fileID rest tags

/-- The records are returned as decoded; the caller receives their JSON array. -/
def GetTagsForFile (l : Ledger) (fileID : GoString) : Except GoString (List TagRecord) :=
  tagsLoop fileID (GetStateByRange l (ascii "TAG_") (ascii "TAH_")) []

/-! ## 4. Audit results -/

def StoreAuditResult (l : Ledger) (uid fileID proofHashHex muHex status : GoString)
    (now : GoString) : Except GoString Ledger :=
  if status ≠ ascii "SUCCESS" ∧ status ≠ ascii "MALICIOUS" then
    .error (ascii "status must be SUCCESS or MALICIOUS")
  else
    let ts := now
    let id := auditKey fileID ts
    let rec_ : AuditRecord :=
      { ID := id, FileID := fileID, UID := uid, ProofHash := proofHashHex, Mu := muHex,
        Status := status, Timestamp := ts }
    .ok (PutState l id (marshalAudit rec_))

/-- The loop of `GetLatestAuditStatus` over the entries of the scan; `latest` is
the pointer it keeps, `none` for `nil`. -/
def latestLoop (fileID : GoString) :
    List (GoString × JObj) → Option AuditRecord → Except GoString (Option AuditRecord)
  | [], latest => .ok latest
  | res :: rest, latest =>
    match unmarshalAudit res.2 with
    | .error e => .error e
    | .ok r =>
      if r.FileID ≠ fileID then latestLoop fileID rest latest
      else
        match latest with
        | none => latestLoop fileID rest (some r)
        | some cur =>
          if strLt cur.Timestamp r.Timestamp then latestLoop fileID rest (some r)
          else latestLoop fileID rest (some cur)

/-- The body of `GetLatestAuditStatus` after the iterator is obtained, on the
sequence of entries the iterator yields. -/
def latestOfScan (entries : List (GoString × JObj)) (fileID : GoString) :
    Except GoString AuditRecord :=
  match latestLoop fileID entries none with
  | .error e => .error e
  | .ok none => .error (ascii "no audit record for fileId " ++ fileID)
  | .ok (some r) => .ok r

/-- The record is returned as decoded; the caller receives its JSON encoding. -/
def GetLatestAuditStatus (l : Ledger) (fileID : GoString) : Except GoString AuditRecord :=
  latestOfScan (GetStateByRange l (ascii "AUDIT_") (ascii "AUE_")) fileID

/-! ## 5. Download logs -/

def LogDownload (l : Ledger) (uid fileID userID : GoString) (allowed : Bool)
    (requestHashHex : GoString) (now : GoString) : Except GoString Ledger :=
  let ts := now
  let id := dlKey fileID userID ts
  let rec_ : DownloadRecord :=
    { ID := id, FileID := fileID, UID := uid, UserID := userID, Allowed := allowed,
      RequestHash := requestHashHex, Timestamp := ts }
  .ok (PutState l id (marshalDownload rec_))

/-- The loop of `GetDownloadHistory` over the entries of the scan. -/
def downloadLoop (fileID : GoString) :
    List (GoString × JObj) → List DownloadRecord → Except GoString (List DownloadRecord)
  | [], list => .ok list
  | res :: rest, list =>
    match unmarshalDownload res.2 with
    | .error e => .error e
    | .ok r => if r.FileID = fileID then downloadLoop fileID rest (list ++ [r])
               else downloadLoop fileID rest list

/-- The records are returned as decoded; the caller receives their JSON array. -/
def GetDownloadHistory (l : Ledger) (fileID : GoString) : Except GoString (List DownloadRecord) :=
  downloadLoop fileID (GetStateByRange l (ascii "DL_") (ascii "DM_")) []

/-! ## Transactions -/

/-- One invocation of a state-changing operation of the contract, with its
arguments and the clock reading of that invocation. -/
inductive Call where
  | createCryptoAnchor (uid dfpEncBase64 signBase64 manufacturerID verifierPKPem now : GoString)
  | recordVerificationResult (uid verifierID status comment now : GoString)
  | storeBlockTags (uid fileID : GoString) (tagsJson : Option (List tagInput)) (now : GoString)
  | storeAuditResult (uid fileID proofHashHex muHex status now : GoString)
  | logDownload (uid fileID userID : GoString) (allowed : Bool) (requestHashHex now : GoString)

/-- Running one invocation on a ledger. -/
def invoke (l : Ledger) : Call → Except GoString Ledger
  | .createCryptoAnchor uid dfp sign man pk now => CreateCryptoAnchor l uid dfp sign man pk now
  | .recordVerificationResult uid vid status comment now =>
      RecordVerificationResult l uid vid status comment now
  | .storeBlockTags uid fileID tagsJson now => StoreBlockTags l uid fileID tagsJson now
  | .storeAuditResult uid fileID ph mu status now => StoreAuditResult l uid fileID ph mu status now
  | .logDownload uid fileID userID allowed rh now => LogDownload l uid fileID userID allowed rh now

/-- The ledger after a transaction: the result of the invocation when it
succeeds, the ledger as it was when it returns an error. -/
def commit (l : Ledger) (c : Call) : Ledger :=
  match invoke l c with
  | .ok l' => l'
  | .error _ => l

/-- The ledger after a sequence of transactions. -/
def run (l : Ledger) (cs : List Call) : Ledger := cs.foldl commit l

end Chaincode

namespace StorageNode

/-! ## The storage node (`app/storage-node/main.go`)

The handlers run under `storeMu`, so each one is a function of the store before
the request. A request body is given by what `json.NewDecoder(r.Body).Decode`
makes of it (`none` when decoding fails), the base64 text of a block by what
`base64.StdEncoding.DecodeString` makes of it (`none` for bad base64), and the
data of a returned block is kept as the bytes that are base64-encoded into the
response. A response is represented by its HTTP status. The strings of a request
are what the JSON decoder returns, valid UTF-8, and are kept as `String`; the
handlers only compare them for equality. -/

structure StoredBlock where
  UID : String
  FileID : String
  BlockIndex : Int
  Data : List UInt8
deriving DecidableEq, Repr

/-- An element of `StoreRequest.Blocks`. -/
structure StoreRequestBlock where
  BlockIndex : Int
  Data : Option (List UInt8)
deriving DecidableEq, Repr

structure StoreRequest where
  UID : String
  FileID : String
  Blocks : List StoreRequestBlock
deriving DecidableEq, Repr

structure GetBlocksRequest where
  FileID : String
  Indices : List Int
deriving DecidableEq, Repr

/-- An element of `GetBlocksResponse.Blocks`. -/
structure ResponseBlock where
  BlockIndex : Int
  Data : List UInt8
deriving DecidableEq, Repr

/-- The loop of `handleStore` over `req.Blocks`: the store after it and the HTTP
status. A block with bad base64 ends the loop with status 400; the blocks
appended before it stay in the store. -/
def storeLoop (uid fileID : String) :
    List StoreRequestBlock → List StoredBlock → List StoredBlock × Nat
  | [], store => (store, 200)
  | b :: rest, store =>
    match b.Data with
    | none => (store, 400)
    | some data =>
      storeLoop uid fileID rest
        (store ++ [{ UID := uid, FileID := fileID, BlockIndex := b.BlockIndex, Data := data }])

def handleStore (store : List StoredBlock) (req : Option StoreRequest) : List StoredBlock × Nat :=
  match req with
  | none => (store, 400)
  | some req => storeLoop req.UID req.FileID req.Blocks store

/-- The inner loop of `handleGetBlocks` over `req.Indices` for one stored block:
the blocks it appends to the response. -/
def indicesLoop (sb : StoredBlock) : List Int → List ResponseBlock
  | [] => []
  | idx :: rest =>
    if sb.BlockIndex = idx then { BlockIndex := idx, Data := sb.Data } :: indicesLoop sb rest
    else indicesLoop sb rest

/-- The outer loop of `handleGetBlocks` over the store: the blocks of the
response, in the order they are appended. -/
def blocksLoop (req : GetBlocksRequest) : List StoredBlock → List ResponseBlock
  | [] => []
  | sb :: rest =>
    if sb.FileID ≠ req.FileID then blocksLoop req rest
    else indicesLoop sb req.Indices ++ blocksLoop req rest

def handleGetBlocks (store : List StoredBlock) (req : Option GetBlocksRequest) :
    Nat × List ResponseBlock :=
  match req with
  | none => (400, [])
  | some req => (200, blocksLoop req store)

/-- The store after a sequence of `/store` requests, starting from the empty
store of a fresh process. -/
def serve (reqs : List (Option StoreRequest)) : List StoredBlock :=
  reqs.foldl (fun store req => (handleStore store req).1) []

end StorageNode

namespace Chaincode

/-! ## Notions used to state the properties -/

/-- The keys of a ledger. -/
def keys (l : Ledger) : List GoString := l.map Prod.fst

/-- The keys of a ledger are strictly increasing: the list represents a world
state, with one value per key. -/
def Sorted (l : Ledger) : Prop := l.Pairwise (fun a b => strLt a.1 b.1)

/-- The string `k` starts with `p`. -/
def startsWith (p k : GoString) : Prop := ∃ x : GoString, k = p ++ x

/-- Comparing `p` with `b` is settled at a position where they differ, or `b`
ends first: `p` is not a proper prefix of `b`. -/
def settled : GoString → GoString → Bool
  | [], [] => true
  | [], _ :: _ => false
  | _ :: _, [] => true
  | a :: p, b :: q => if a = b then settled p q else true

/-- The number a list of decimal digits denotes. -/
def decimalValue (cs : List Char) : Nat := cs.foldl (fun a c => 10 * a + (c.toNat - 48)) 0

/-- An entry as one of the five writing operations puts it: the key built from
the fields of the record whose encoding is stored under it. -/
def WellFormed (e : GoString × JObj) : Prop :=
  (∃ a : CryptoAnchor, e = (ascii "ANCHOR_" ++ a.UID, marshalAnchor a)) ∨
  (∃ r : VerificationRecord, e = (verKey r.UID r.Timestamp, marshalVerification r)) ∨
  (∃ t : TagRecord, e = (tagKey t.FileID t.BlockIndex, marshalTag t) ∧
    t.ID = tagKey t.FileID t.BlockIndex) ∨
  (∃ r : AuditRecord, e = (auditKey r.FileID r.Timestamp, marshalAudit r) ∧
    r.ID = auditKey r.FileID r.Timestamp ∧
    (r.Status = ascii "SUCCESS" ∨ r.Status = ascii "MALICIOUS")) ∨
  (∃ d : DownloadRecord, e = (dlKey d.FileID d.UserID d.Timestamp, marshalDownload d))

/-- The representation invariant of the ledgers the contract produces. -/
def Inv (l : Ledger) : Prop := Sorted l ∧ ∀ e ∈ l, WellFormed e

/-- The kinds of record the contract stores. -/
inductive Kind where
  | anchor
  | ver
  | tag
  | audit
  | dl
deriving DecidableEq, Repr

/-- The bytes with which the keys of a kind begin. -/
def keyStart : Kind → GoString
  | .anchor => ascii "ANCHOR_"
  | .ver => ascii "VER_"
  | .tag => ascii "TAG_"
  | .audit => ascii "AUDIT_"
  | .dl => ascii "DL_"

/-- The keys an invocation passes to `PutState` when it does not return an
error first, each with the kind of the operation: `CreateCryptoAnchor`,
`RecordVerificationResult`, `StoreBlockTags`, `StoreAuditResult`, `LogDownload`. -/
def puts : Call → List (Kind × GoString)
  | .createCryptoAnchor uid _ _ _ _ _ => [(.anchor, ascii "ANCHOR_" ++ uid)]
  | .recordVerificationResult uid _ _ _ now => [(.ver, verKey uid now)]
  | .storeBlockTags _ fileID (some tags) _ =>
      tags.map (fun t => (Kind.tag, tagKey fileID t.BlockIndex))
  | .storeBlockTags _ _ none _ => []
  | .storeAuditResult _ fileID _ _ _ now => [(.audit, auditKey fileID now)]
  | .logDownload _ fileID userID _ _ now => [(.dl, dlKey fileID userID now)]

/-- The keys written by the committed transactions of a sequence that starts
on ledger `l`, each with the kind of the operation that wrote it. -/
def written (l : Ledger) : List Call → List (Kind × GoString)
  | [] => []
  | c :: cs =>
    match invoke l c with
    | .ok l' => puts c ++ written l' cs
    | .error _ => written l cs

/-- The tag records a sequence of invocations builds and stores, oldest first
(the records as `StoreBlockTags` builds them, before encoding). -/
def tagWrites : List Call → List TagRecord
  | [] => []
  | .storeBlockTags uid fileID (some tags) now :: cs =>
      tags.map (fun t =>
        { ID := tagKey fileID t.BlockIndex, UID := uid, FileID := fileID,
          BlockIndex := t.BlockIndex, TagValue := t.TagValue, CreatedAt := now }) ++ tagWrites cs
  | _ :: cs => tagWrites cs

/-- The most recent tag record built for block `i` of the file `f` given to
`StoreBlockTags`: the first one met going back from the last write. -/
def lastTag (f : GoString) (i : Int) (cs : List Call) : Option TagRecord :=
  (tagWrites cs).reverse.find? (fun t => decide (t.FileID = f ∧ t.BlockIndex = i))

/-- The record `json.Unmarshal` reads back from the encoding of an audit record:
its string fields coerced to valid UTF-8. -/
def decodedAudit (r : AuditRecord) : AuditRecord :=
  { ID := coerceUTF8 r.ID, FileID := coerceUTF8 r.FileID, UID := coerceUTF8 r.UID,
    ProofHash := coerceUTF8 r.ProofHash, Mu := coerceUTF8 r.Mu, Status := coerceUTF8 r.Status,
    Timestamp := coerceUTF8 r.Timestamp }

/-- The invocation, when it is a `StoreAuditResult`, has a `fileID` that is valid
UTF-8 (`utf8.ValidString`: encoding it to JSON and back gives the same bytes) and
a clock reading that is, as every output of `nowISO()` is. -/
def utf8Audit : Call → Bool
  | .storeAuditResult _ fileID _ _ _ now =>
      decide (coerceUTF8 fileID = fileID) && decide (coerceUTF8 now = now)
  | _ => true

/-- Every entry of the audit range holds the encoding of a record whose file and
timestamp are valid UTF-8, under the key made of them. -/
def AuditClean (l : Ledger) : Prop :=
  ∀ e ∈ l, inRange (ascii "AUDIT_") (ascii "AUE_") e.1 →
    ∃ r : AuditRecord, e = (auditKey r.FileID r.Timestamp, marshalAudit r) ∧
      coerceUTF8 r.FileID = r.FileID ∧ coerceUTF8 r.Timestamp = r.Timestamp


/-! ## The world state: reading after writing -/

theorem strLt_irrefl (a : GoString) : ¬ strLt a a := lt_irrefl a

theorem strLt_trans {a b c : GoString} (h1 : strLt a b) (h2 : strLt b c) : strLt a c :=
  @lt_trans (List Nat) _ _ _ _ h1 h2

theorem strLt_of_not {a b : GoString} (h1 : ¬ strLt a b) (h2 : a ≠ b) : strLt b a := by
  rcases lt_trichotomy a b with h | h | h
  · exact absurd h h1
  · exact absurd h h2
  · exact h

theorem GetState_PutState_same (l : Ledger) (k : GoString) (v : JObj) :
    GetState (PutState l k v) k = some v := by
  induction l with
  | nil => simp [PutState, GetState]
  | cons e rest ih =>
    obtain ⟨k', v'⟩ := e
    simp only [PutState]
    split_ifs with h1 h2
    · simp [GetState]
    · simp [GetState]
    · simp [GetState, ih, Ne.symm h2]

theorem GetState_PutState_other (l : Ledger) (k k' : GoString) (v : JObj) (h : k' ≠ k) :
    GetState (PutState l k v) k' = GetState l k' := by
  induction l with
  | nil => simp [PutState, GetState, Ne.symm h]
  | cons e rest ih =>
    obtain ⟨k₀, v₀⟩ := e
    simp only [PutState]
    split_ifs with h1 h2
    · simp [GetState, Ne.symm h]
    · subst h2; simp [GetState, Ne.symm h]
    · simp [GetState, ih]

theorem mem_PutState_sub {l : Ledger} {k : GoString} {v : JObj} {e : GoString × JObj}
    (h : e ∈ PutState l k v) : e = (k, v) ∨ e ∈ l := by
  induction l with
  | nil => simp [PutState] at h; exact Or.inl h
  | cons e₀ rest ih =>
    obtain ⟨k₀, v₀⟩ := e₀
    simp only [PutState] at h
    split_ifs at h with h1 h2
    · rcases List.mem_cons.1 h with h | h
      · exact Or.inl h
      · exact Or.inr h
    · rcases List.mem_cons.1 h with h | h
      · exact Or.inl h
      · exact Or.inr (List.mem_cons_of_mem _ h)
    · rcases List.mem_cons.1 h with h | h
      · exact Or.inr (h ▸ List.mem_cons_self _ _)
      · rcases ih h with h | h
        · exact Or.inl h
        · exact Or.inr (List.mem_cons_of_mem _ h)

theorem Sorted_PutState {l : Ledger} (hs : Sorted l) (k : GoString) (v : JObj) :
    Sorted (PutState l k v) := by
  induction l with
  | nil => simp [PutState, Sorted]
  | cons e₀ rest ih =>
    obtain ⟨k₀, v₀⟩ := e₀
    have hs' := List.pairwise_cons.1 hs
    simp only [PutState]
    split_ifs with h1 h2
    · refine List.pairwise_cons.2 ⟨?_, hs⟩
      intro e he
      rcases List.mem_cons.1 he with he | he
      · subst he; exact h1
      · exact strLt_trans h1 (hs'.1 e he)
    · subst h2
      exact List.pairwise_cons.2 ⟨hs'.1, hs'.2⟩
    · refine List.pairwise_cons.2 ⟨?_, ih hs'.2⟩
      intro e he
      rcases mem_PutState_sub he with he | he
      · subst he; exact strLt_of_not h1 h2
      · exact hs'.1 e he

theorem GetState_eq_none_iff (l : Ledger) (k : GoString) :
    GetState l k = none ↔ k ∉ keys l := by
  induction l with
  | nil => simp [GetState, keys]
  | cons e₀ rest ih =>
    obtain ⟨k₀, v₀⟩ := e₀
    by_cases h : k₀ = k
    · simp [GetState, keys, h]
    · simp only [GetState, if_neg h, ih]
      simp [keys, Ne.symm h]

theorem GetState_eq_some_iff {l : Ledger} (hs : Sorted l) (k : GoString) (v : JObj) :
    GetState l k = some v ↔ (k, v) ∈ l := by
  induction l with
  | nil => simp [GetState]
  | cons e₀ rest ih =>
    obtain ⟨k₀, v₀⟩ := e₀
    have hs' := List.pairwise_cons.1 hs
    by_cases h : k₀ = k
    · subst h
      simp only [GetState, if_true, List.mem_cons, Prod.mk.injEq, true_and, Option.some.injEq]
      constructor
      · intro hv; exact Or.inl hv.symm
      · rintro (hv | hv)
        · exact hv.symm
        · exact absurd (hs'.1 _ hv) (strLt_irrefl _)
    · simp only [GetState, if_neg h, ih hs'.2, List.mem_cons, Prod.mk.injEq]
      constructor
      · intro hv; exact Or.inr hv
      · rintro (hv | hv)
        · exact absurd hv.1.symm h
        · exact hv

theorem keys_PutState (l : Ledger) (k k' : GoString) (v : JObj) :
    k' ∈ keys (PutState l k v) ↔ k' = k ∨ k' ∈ keys l := by
  rw [← not_iff_not, ← GetState_eq_none_iff, not_or, ← GetState_eq_none_iff]
  by_cases h : k' = k
  · subst h; simp [GetState_PutState_same]
  · simp [GetState_PutState_other _ _ _ _ h, h]

/-! ## Range scans after a write -/

theorem GetStateByRange_PutState_out (l : Ledger) (s e k : GoString) (v : JObj)
    (h : ¬ inRange s e k) :
    GetStateByRange (PutState l k v) s e = GetStateByRange l s e := by
  induction l with
  | nil => simp [PutState, GetStateByRange, h]
  | cons e₀ rest ih =>
    obtain ⟨k₀, v₀⟩ := e₀
    simp only [PutState]
    split_ifs with h1 h2
    · simp only [GetStateByRange] at *
      rw [List.filter_cons_of_neg (by simpa using h)]
    · subst h2
      simp only [GetStateByRange] at *
      rw [List.filter_cons_of_neg (by simpa using h), List.filter_cons_of_neg (by simpa using h)]
    · simp only [GetStateByRange] at *
      simp only [List.filter_cons, ih]

theorem length_scan_PutState_new (l : Ledger) (s e k : GoString) (v : JObj)
    (h : inRange s e k) (hn : GetState l k = none) :
    (GetStateByRange (PutState l k v) s e).length = (GetStateByRange l s e).length + 1 := by
  induction l with
  | nil => simp [PutState, GetStateByRange, h]
  | cons e₀ rest ih =>
    obtain ⟨k₀, v₀⟩ := e₀
    have hne : k₀ ≠ k := by
      intro h0; simp [GetState, h0] at hn
    have hn' : GetState rest k = none := by simpa [GetState, hne] using hn
    simp only [PutState]
    split_ifs with h1 h2
    · simp only [GetStateByRange] at *
      rw [List.filter_cons_of_pos (by simpa using h)]
      simp
    · exact absurd h2.symm hne
    · have ih' := ih hn'
      simp only [GetStateByRange] at *
      simp only [List.filter_cons]
      split_ifs
      · simp [ih']
      · exact ih'

theorem length_scan_PutState_old {l : Ledger} (hs : Sorted l) (s e k : GoString) (v : JObj)
    (hn : GetState l k ≠ none) :
    (GetStateByRange (PutState l k v) s e).length = (GetStateByRange l s e).length := by
  induction l with
  | nil => simp [GetState] at hn
  | cons e₀ rest ih =>
    obtain ⟨k₀, v₀⟩ := e₀
    have hs' := List.pairwise_cons.1 hs
    simp only [PutState]
    split_ifs with h1 h2
    · exfalso
      rw [Ne, GetState_eq_none_iff, not_not] at hn
      simp only [keys, List.map_cons, List.mem_cons, List.mem_map] at hn
      rcases hn with hn | ⟨e', he', hk⟩
      · rw [hn] at h1; exact strLt_irrefl _ h1
      · have := hs'.1 e' he'
        simp only at this
        rw [hk] at this
        exact strLt_irrefl _ (strLt_trans h1 this)
    · subst h2
      simp only [GetStateByRange, List.filter_cons]
      split_ifs <;> simp
    · have hn' : GetState rest k ≠ none := by simpa [GetState, Ne.symm h2] using hn
      have ih' := ih hs'.2 hn'
      simp only [GetStateByRange] at *
      simp only [List.filter_cons]
      split_ifs
      · simp [ih']
      · exact ih'




/-! ## Keys with a fixed prefix and the scan ranges -/

theorem append_lt_iff_of_settled (p b x : GoString) (h : settled p b = true) :
    p ++ x < b ↔ p < b := by
  induction p generalizing b with
  | nil =>
    cases b with
    | nil => simp
    | cons c q => simp [settled] at h
  | cons a p ih =>
    cases b with
    | nil =>
      constructor <;> intro hl <;> exact absurd hl (List.Lex.not_nil_right _ _)
    | cons c q =>
      by_cases hac : a = c
      · subst hac
        simp only [settled, if_true] at h
        show List.Lex (· < ·) (a :: (p ++ x)) (a :: q) ↔ List.Lex (· < ·) (a :: p) (a :: q)
        rw [List.Lex.cons_iff, List.Lex.cons_iff]
        exact ih q h
      · show List.Lex (· < ·) (a :: (p ++ x)) (c :: q) ↔ List.Lex (· < ·) (a :: p) (c :: q)
        constructor
        · intro hl
          cases hl with
          | cons _ => exact absurd rfl hac
          | rel hr => exact List.Lex.rel hr
        · intro hl
          cases hl with
          | cons _ => exact absurd rfl hac
          | rel hr => exact List.Lex.rel hr

theorem inRange_of_startsWith {p k : GoString} (s e : GoString) (hk : startsWith p k)
    (h1 : settled p s = true) (h2 : settled p e = true) :
    inRange s e k ↔ inRange s e p := by
  obtain ⟨x, hx⟩ := hk
  unfold inRange strLe strLt
  rw [hx, append_lt_iff_of_settled _ _ _ h1, append_lt_iff_of_settled _ _ _ h2]

theorem startsWith_append (p x : GoString) : startsWith p (p ++ x) :=
  ⟨x, rfl⟩

theorem startsWith_append_left {p k : GoString} (h : startsWith p k) (x : GoString) :
    startsWith p (k ++ x) := by
  obtain ⟨y, hy⟩ := h
  exact ⟨y ++ x, by rw [hy, List.append_assoc]⟩

theorem startsWith_verKey (uid ts : GoString) : startsWith (ascii "VER_") (verKey uid ts) :=
  startsWith_append_left (startsWith_append_left (startsWith_append _ _) _) _

theorem startsWith_tagKey (fileID : GoString) (i : Int) :
    startsWith (ascii "TAG_") (tagKey fileID i) :=
  startsWith_append_left (startsWith_append_left (startsWith_append _ _) _) _

theorem startsWith_auditKey (fileID ts : GoString) :
    startsWith (ascii "AUDIT_") (auditKey fileID ts) :=
  startsWith_append_left (startsWith_append_left (startsWith_append _ _) _) _

theorem startsWith_dlKey (fileID userID ts : GoString) :
    startsWith (ascii "DL_") (dlKey fileID userID ts) :=
  startsWith_append_left (startsWith_append_left (startsWith_append_left
    (startsWith_append_left (startsWith_append _ _) _) _) _) _

/-- The prefix of a key settles in which scan ranges it lies. -/
theorem ranges_of_anchor {k : GoString} (h : startsWith (ascii "ANCHOR_") k) :
    ¬ inRange (ascii "VER_") (ascii "VES_") k ∧ ¬ inRange (ascii "TAG_") (ascii "TAH_") k ∧ ¬ inRange (ascii "AUDIT_") (ascii "AUE_") k ∧
      ¬ inRange (ascii "DL_") (ascii "DM_") k := by
  refine ⟨?_, ?_, ?_, ?_⟩ <;>
    (rw [inRange_of_startsWith _ _ h (by decide) (by decide)]; decide)

theorem ranges_of_ver {k : GoString} (h : startsWith (ascii "VER_") k) :
    inRange (ascii "VER_") (ascii "VES_") k ∧ ¬ inRange (ascii "TAG_") (ascii "TAH_") k ∧ ¬ inRange (ascii "AUDIT_") (ascii "AUE_") k ∧
      ¬ inRange (ascii "DL_") (ascii "DM_") k := by
  refine ⟨?_, ?_, ?_, ?_⟩ <;>
    (rw [inRange_of_startsWith _ _ h (by decide) (by decide)]; decide)

theorem ranges_of_tag {k : GoString} (h : startsWith (ascii "TAG_") k) :
    ¬ inRange (ascii "VER_") (ascii "VES_") k ∧ inRange (ascii "TAG_") (ascii "TAH_") k ∧ ¬ inRange (ascii "AUDIT_") (ascii "AUE_") k ∧
      ¬ inRange (ascii "DL_") (ascii "DM_") k := by
  refine ⟨?_, ?_, ?_, ?_⟩ <;>
    (rw [inRange_of_startsWith _ _ h (by decide) (by decide)]; decide)

theorem ranges_of_audit {k : GoString} (h : startsWith (ascii "AUDIT_") k) :
    ¬ inRange (ascii "VER_") (ascii "VES_") k ∧ ¬ inRange (ascii "TAG_") (ascii "TAH_") k ∧ inRange (ascii "AUDIT_") (ascii "AUE_") k ∧
      ¬ inRange (ascii "DL_") (ascii "DM_") k := by
  refine ⟨?_, ?_, ?_, ?_⟩ <;>
    (rw [inRange_of_startsWith _ _ h (by decide) (by decide)]; decide)

theorem ranges_of_dl {k : GoString} (h : startsWith (ascii "DL_") k) :
    ¬ inRange (ascii "VER_") (ascii "VES_") k ∧ ¬ inRange (ascii "TAG_") (ascii "TAH_") k ∧ ¬ inRange (ascii "AUDIT_") (ascii "AUE_") k ∧
      inRange (ascii "DL_") (ascii "DM_") k := by
  refine ⟨?_, ?_, ?_, ?_⟩ <;>
    (rw [inRange_of_startsWith _ _ h (by decide) (by decide)]; decide)

/-! ## Decimal formatting and the injectivity of the tag key -/

theorem digitChar_props (d : Nat) (h : d < 10) :
    (Nat.digitChar d).toNat - 48 = d ∧ Nat.digitChar d ≠ '_' ∧ Nat.digitChar d ≠ '-' := by
  interval_cases d <;> decide

theorem toDigitsCore_spec (fuel : Nat) : ∀ (n : Nat) (ds : List Char), n < fuel →
    ∃ pre : List Char, Nat.toDigitsCore 10 fuel n ds = pre ++ ds ∧ pre ≠ [] ∧
      (∀ c ∈ pre, c ≠ '_' ∧ c ≠ '-') ∧ decimalValue pre = n := by
  induction fuel with
  | zero => intro n ds h; omega
  | succ fuel ih =>
    intro n ds h
    have hd := digitChar_props (n % 10) (Nat.mod_lt _ (by decide))
    simp only [Nat.toDigitsCore]
    split_ifs with h0
    · refine ⟨[Nat.digitChar (n % 10)], rfl, by simp, ?_, ?_⟩
      · intro c hc
        rw [List.mem_singleton.1 hc]; exact hd.2
      · simp only [decimalValue, List.foldl, hd.1]
        omega
    · obtain ⟨pre, hpre, _, hall, hval⟩ := ih (n / 10) (Nat.digitChar (n % 10) :: ds) (by omega)
      refine ⟨pre ++ [Nat.digitChar (n % 10)], by simp [hpre], by simp, ?_, ?_⟩
      · intro c hc
        rcases List.mem_append.1 hc with hc | hc
        · exact hall c hc
        · rw [List.mem_singleton.1 hc]; exact hd.2
      · simp only [decimalValue] at hval ⊢
        rw [List.foldl_append, hval]
        simp only [List.foldl, hd.1]
        omega

theorem natRepr_spec (n : Nat) :
    (Nat.repr n).toList ≠ [] ∧ (∀ c ∈ (Nat.repr n).toList, c ≠ '_' ∧ c ≠ '-') ∧
      decimalValue (Nat.repr n).toList = n := by
  obtain ⟨pre, hpre, hne, hall, hval⟩ := toDigitsCore_spec (n + 1) n [] (Nat.lt_succ_self n)
  have : (Nat.repr n).toList = pre := by
    simp [Nat.repr, Nat.toDigits, hpre, String.toList, List.asString]
  rw [this]
  exact ⟨hne, hall, hval⟩

theorem intToString_toList (i : Int) :
    (toString i).toList = match i with
      | Int.ofNat m => (Nat.repr m).toList
      | Int.negSucc m => '-' :: (Nat.repr (m + 1)).toList := by
  cases i with
  | ofNat m => rfl
  | negSucc m => rfl

theorem intToString_no_underscore (i : Int) : '_' ∉ (toString i).toList := by
  rw [intToString_toList]
  cases i with
  | ofNat m =>
    intro h; exact ((natRepr_spec m).2.1 _ h).1 rfl
  | negSucc m =>
    intro h
    rcases List.mem_cons.1 h with h | h
    · exact absurd h (by decide)
    · exact ((natRepr_spec (m + 1)).2.1 _ h).1 rfl

theorem intToString_injective {i j : Int} (h : toString i = toString j) : i = j := by
  have h' : (toString i).toList = (toString j).toList := by rw [h]
  rw [intToString_toList, intToString_toList] at h'
  have hhead : ∀ m : Nat, ∀ cs, (Nat.repr m).toList ≠ '-' :: cs := by
    intro m cs hm
    have h1 := (natRepr_spec m).2.1 '-' (by rw [hm]; exact List.mem_cons_self _ _)
    exact h1.2 rfl
  cases i with
  | ofNat m =>
    cases j with
    | ofNat m' =>
      have := congrArg decimalValue h'
      simp only [(natRepr_spec m).2.2, (natRepr_spec m').2.2] at this
      rw [this]
    | negSucc m' => exact absurd h' (hhead m _)
  | negSucc m =>
    cases j with
    | ofNat m' => exact absurd h'.symm (hhead m' _)
    | negSucc m' =>
      have h'' := (List.cons.inj h').2
      have := congrArg decimalValue h''
      simp only [(natRepr_spec (m + 1)).2.2, (natRepr_spec (m' + 1)).2.2] at this
      have : m = m' := by omega
      rw [this]

theorem charToNat_injective : Function.Injective Char.toNat := by
  intro a b h
  rw [← Char.ofNat_toNat a, ← Char.ofNat_toNat b, h]

theorem ascii_injective {s t : String} (h : ascii s = ascii t) : s = t :=
  String.ext (List.map_injective_iff.2 charToNat_injective h)

theorem ascii_intToString_no_underscore (i : Int) : 95 ∉ ascii (toString i) := by
  intro h
  obtain ⟨c, hc, hc95⟩ := List.mem_map.1 h
  have : c = '_' := charToNat_injective (by rw [hc95]; rfl)
  rw [this] at hc
  exact intToString_no_underscore i hc

theorem split_at_last {α : Type} (a : α) : ∀ (xs xs' ys ys' : List α), a ∉ ys → a ∉ ys' →
    xs ++ a :: ys = xs' ++ a :: ys' → xs = xs' ∧ ys = ys' := by
  intro xs xs' ys ys' h1 h2 h
  have hr := congrArg List.reverse h
  simp only [List.reverse_append, List.reverse_cons, List.append_assoc, List.singleton_append] at hr
  have key : ∀ (u u' v v' : List α), a ∉ u → a ∉ u' → u ++ a :: v = u' ++ a :: v' →
      u = u' ∧ v = v' := by
    intro u
    induction u with
    | nil =>
      intro u' v v' _ hu' hq
      cases u' with
      | nil => simpa using hq
      | cons b u' =>
        simp only [List.nil_append, List.cons_append, List.cons.injEq] at hq
        exact absurd (hq.1 ▸ List.mem_cons_self _ _) hu'
    | cons b u ihu =>
      intro u' v v' hu hu' hq
      cases u' with
      | nil =>
        simp only [List.nil_append, List.cons_append, List.cons.injEq] at hq
        exact absurd (hq.1 ▸ List.mem_cons_self _ _) hu
      | cons b' u' =>
        simp only [List.cons_append, List.cons.injEq] at hq
        obtain ⟨h3, h4⟩ := ihu u' v v' (fun hm => hu (List.mem_cons_of_mem _ hm))
          (fun hm => hu' (List.mem_cons_of_mem _ hm)) hq.2
        exact ⟨by rw [hq.1, h3], h4⟩
  obtain ⟨h3, h4⟩ := key ys.reverse ys'.reverse xs.reverse xs'.reverse
    (by simpa using h1) (by simpa using h2) hr
  exact ⟨List.reverse_injective h4, List.reverse_injective h3⟩

theorem tagKey_injective {f f' : GoString} {i i' : Int} (h : tagKey f i = tagKey f' i') :
    f = f' ∧ i = i' := by
  simp only [tagKey, List.append_assoc] at h
  have h' := List.append_cancel_left h
  have hu : ascii "_" = [95] := rfl
  rw [hu] at h'
  simp only [List.singleton_append] at h'
  obtain ⟨h1, h2⟩ := split_at_last 95 _ _ _ _ (ascii_intToString_no_underscore i)
    (ascii_intToString_no_underscore i') h'
  exact ⟨h1, intToString_injective (ascii_injective h2)⟩



/-! ## Decoding what was encoded -/

theorem unmarshalAudit_marshalAudit (r : AuditRecord) :
    unmarshalAudit (marshalAudit r) = .ok (decodedAudit r) := by
  cases r; rfl

/-! ## The invariant of the contract's ledgers -/

theorem Inv_nil : Inv [] := ⟨List.Pairwise.nil, by simp⟩

theorem Inv_PutState {l : Ledger} (h : Inv l) {k : GoString} {v : JObj} (hw : WellFormed (k, v)) :
    Inv (PutState l k v) := by
  refine ⟨Sorted_PutState h.1 k v, ?_⟩
  intro e he
  rcases mem_PutState_sub he with he | he
  · rw [he]; exact hw
  · exact h.2 e he

theorem Inv_storeTagsLoop (uid fileID now : GoString) (tags : List tagInput) :
    ∀ l : Ledger, Inv l → Inv (storeTagsLoop uid fileID now tags l) := by
  induction tags with
  | nil => intro l h; exact h
  | cons t ts ih =>
    intro l h
    simp only [storeTagsLoop]
    apply ih
    apply Inv_PutState h
    exact Or.inr (Or.inr (Or.inl
      ⟨{ ID := tagKey fileID t.BlockIndex, UID := uid, FileID := fileID,
         BlockIndex := t.BlockIndex, TagValue := t.TagValue, CreatedAt := now }, rfl, rfl⟩))

theorem Inv_invoke {l l' : Ledger} (h : Inv l) (c : Call) (hc : invoke l c = .ok l') : Inv l' := by
  cases c with
  | createCryptoAnchor uid dfp sign man pk now =>
    simp only [invoke, CreateCryptoAnchor] at hc
    split_ifs at hc
    cases hc
    exact Inv_PutState h (Or.inl
      ⟨{ UID := uid, DFPEnc := dfp, Sign := sign, Manufacturer := man, VerifierPKPem := pk,
         CreatedAt := now }, rfl⟩)
  | recordVerificationResult uid vid status comment now =>
    simp only [invoke, RecordVerificationResult] at hc
    split_ifs at hc
    cases hc
    exact Inv_PutState h (Or.inr (Or.inl
      ⟨{ ID := verKey uid now, UID := uid, VerifierID := vid, Status := status,
         Comment := comment, Timestamp := now }, rfl⟩))
  | storeBlockTags uid fileID tagsJson now =>
    cases tagsJson with
    | none => simp [invoke, StoreBlockTags] at hc
    | some tags =>
      simp only [invoke, StoreBlockTags] at hc
      cases hc
      exact Inv_storeTagsLoop uid fileID now tags l h
  | storeAuditResult uid fileID ph mu status now =>
    simp only [invoke, StoreAuditResult] at hc
    split_ifs at hc with hst
    cases hc
    refine Inv_PutState h (Or.inr (Or.inr (Or.inr (Or.inl
      ⟨{ ID := auditKey fileID now, FileID := fileID, UID := uid, ProofHash := ph, Mu := mu,
         Status := status, Timestamp := now }, rfl, rfl, ?_⟩))))
    show status = ascii "SUCCESS" ∨ status = ascii "MALICIOUS"
    by_contra hcon
    exact hst ⟨fun h1 => hcon (Or.inl h1), fun h2 => hcon (Or.inr h2)⟩
  | logDownload uid fileID userID allowed rh now =>
    simp only [invoke, LogDownload] at hc
    cases hc
    exact Inv_PutState h (Or.inr (Or.inr (Or.inr (Or.inr
      ⟨{ ID := dlKey fileID userID now, FileID := fileID, UID := uid, UserID := userID,
         Allowed := allowed, RequestHash := rh, Timestamp := now }, rfl⟩))))

theorem Inv_commit {l : Ledger} (h : Inv l) (c : Call) : Inv (commit l c) := by
  unfold commit
  cases hc : invoke l c with
  | error e => exact h
  | ok l' => exact Inv_invoke h c hc

theorem Inv_run (cs : List Call) : ∀ l : Ledger, Inv l → Inv (run l cs) := by
  induction cs with
  | nil => intro l h; exact h
  | cons c cs ih => intro l h; exact ih _ (Inv_commit h c)

theorem run_cons (l : Ledger) (c : Call) (cs : List Call) :
    run l (c :: cs) = run (commit l c) cs := rfl

/-- In a well-formed entry whose key lies in the audit range the value is an
audit record with a valid status, stored under the key made of its file and
timestamp. -/
theorem audit_of_WellFormed {e : GoString × JObj} (h : WellFormed e)
    (hr : inRange (ascii "AUDIT_") (ascii "AUE_") e.1) :
    ∃ r : AuditRecord, e = (auditKey r.FileID r.Timestamp, marshalAudit r) ∧
      r.ID = auditKey r.FileID r.Timestamp ∧ (r.Status = ascii "SUCCESS" ∨ r.Status = ascii "MALICIOUS") := by
  rcases h with ⟨a, rfl⟩ | ⟨r, rfl⟩ | ⟨t, rfl, _⟩ | ⟨r, rfl, h1, h2⟩ | ⟨d, rfl⟩
  · exact absurd hr (ranges_of_anchor (startsWith_append _ _)).2.2.1
  · exact absurd hr (ranges_of_ver (startsWith_verKey _ _)).2.2.1
  · exact absurd hr (ranges_of_tag (startsWith_tagKey _ _)).2.2.1
  · exact ⟨r, rfl, h1, h2⟩
  · exact absurd hr (ranges_of_dl (startsWith_dlKey _ _ _)).2.2.1

theorem mem_GetStateByRange {l : Ledger} {s e : GoString} {x : GoString × JObj} :
    x ∈ GetStateByRange l s e ↔ x ∈ l ∧ inRange s e x.1 := by
  simp [GetStateByRange]


/-! ## The loop of `GetLatestAuditStatus` -/

/-- On entries that all hold audit records the loop returns without error, and
what it returns is the pointer it started with or a record of the file among the
entries, whose timestamp none of these exceeds. -/
theorem latestLoop_spec (f : GoString) : ∀ (entries : List (GoString × JObj))
    (cur : Option AuditRecord), (∀ e ∈ entries, ∃ r, unmarshalAudit e.2 = .ok r) →
    ∃ res, latestLoop f entries cur = .ok res ∧
      (∀ m, res = some m → cur = some m ∨ ∃ e ∈ entries, unmarshalAudit e.2 = .ok m ∧ m.FileID = f) ∧
      (∀ m, res = some m → (∀ c, cur = some c → ¬ strLt m.Timestamp c.Timestamp) ∧
        ∀ e ∈ entries, ∀ r, unmarshalAudit e.2 = .ok r → r.FileID = f →
          ¬ strLt m.Timestamp r.Timestamp) ∧
      (res = none → cur = none ∧ ∀ e ∈ entries, ∀ r, unmarshalAudit e.2 = .ok r → r.FileID ≠ f) := by
  intro entries
  induction entries with
  | nil =>
    intro cur _
    refine ⟨cur, rfl, ?_, ?_, ?_⟩
    · intro m hm; exact Or.inl hm
    · intro m hm
      refine ⟨?_, by simp⟩
      intro c hc
      rw [hm] at hc; cases hc
      exact strLt_irrefl _
    · intro h; exact ⟨h, by simp⟩
  | cons e rest ih =>
    intro cur hall
    obtain ⟨r, hr⟩ := hall e (List.mem_cons_self _ _)
    have hrest : ∀ e' ∈ rest, ∃ r, unmarshalAudit e'.2 = .ok r :=
      fun e' he' => hall e' (List.mem_cons_of_mem _ he')
    have hloop : ∃ cur' : Option AuditRecord,
        latestLoop f (e :: rest) cur = latestLoop f rest cur' ∧
        (∀ m, cur' = some m → cur = some m ∨ (m = r ∧ r.FileID = f)) ∧
        (∀ m, cur' = some m → (∀ c, cur = some c → ¬ strLt m.Timestamp c.Timestamp) ∧
          (r.FileID = f → ¬ strLt m.Timestamp r.Timestamp)) ∧
        (cur' = none → cur = none ∧ r.FileID ≠ f) := by
      by_cases hf : r.FileID = f
      · cases cur with
        | none =>
          refine ⟨some r, ?_, ?_, ?_, ?_⟩
          · simp [latestLoop, hr, hf]
          · intro m hm; cases hm; exact Or.inr ⟨rfl, hf⟩
          · intro m hm; cases hm
            exact ⟨fun c hc => (by cases hc), fun _ => strLt_irrefl _⟩
          · intro h; cases h
        | some c =>
          by_cases hlt : strLt c.Timestamp r.Timestamp
          · refine ⟨some r, ?_, ?_, ?_, ?_⟩
            · simp only [latestLoop, hr]
              rw [if_neg (by simp [hf]), if_pos hlt]
            · intro m hm; cases hm; exact Or.inr ⟨rfl, hf⟩
            · intro m hm; cases hm
              refine ⟨?_, fun _ => strLt_irrefl _⟩
              intro c' hc'; cases hc'
              exact @lt_asymm (List Nat) _ _ _ hlt
            · intro h; cases h
          · refine ⟨some c, ?_, ?_, ?_, ?_⟩
            · simp only [latestLoop, hr]
              rw [if_neg (by simp [hf]), if_neg hlt]
            · intro m hm; exact Or.inl hm
            · intro m hm; cases hm
              refine ⟨?_, fun _ => hlt⟩
              intro c' hc'; cases hc'
              exact strLt_irrefl _
            · intro h; cases h
      · refine ⟨cur, ?_, ?_, ?_, ?_⟩
        · simp only [latestLoop, hr]
          rw [if_pos hf]
        · intro m hm; exact Or.inl hm
        · intro m hm
          refine ⟨?_, fun h => absurd h hf⟩
          intro c hc; rw [hm] at hc; cases hc
          exact strLt_irrefl _
        · intro h; exact ⟨h, hf⟩
    have step : ∀ cur' : Option AuditRecord,
        (∀ m, cur' = some m → cur = some m ∨ (m = r ∧ r.FileID = f)) →
        (∀ m, cur' = some m → (∀ c, cur = some c → ¬ strLt m.Timestamp c.Timestamp) ∧
          (r.FileID = f → ¬ strLt m.Timestamp r.Timestamp)) →
        (cur' = none → cur = none ∧ r.FileID ≠ f) →
        ∃ res, latestLoop f rest cur' = .ok res ∧
          (∀ m, res = some m →
            cur = some m ∨ ∃ e' ∈ e :: rest, unmarshalAudit e'.2 = .ok m ∧ m.FileID = f) ∧
          (∀ m, res = some m → (∀ c, cur = some c → ¬ strLt m.Timestamp c.Timestamp) ∧
            ∀ e' ∈ e :: rest, ∀ r', unmarshalAudit e'.2 = .ok r' → r'.FileID = f →
              ¬ strLt m.Timestamp r'.Timestamp) ∧
          (res = none →
            cur = none ∧ ∀ e' ∈ e :: rest, ∀ r', unmarshalAudit e'.2 = .ok r' → r'.FileID ≠ f) := by
      intro cur' h1 h2 h3
      obtain ⟨res, hres, p1, p2, p3⟩ := ih cur' hrest
      refine ⟨res, hres, ?_, ?_, ?_⟩
      · intro m hm
        rcases p1 m hm with hc | ⟨e', he', hm'⟩
        · rcases h1 m hc with hc' | ⟨hmr, hf⟩
          · exact Or.inl hc'
          · exact Or.inr ⟨e, List.mem_cons_self _ _, by rw [hmr]; exact hr, by rw [hmr]; exact hf⟩
        · exact Or.inr ⟨e', List.mem_cons_of_mem _ he', hm'⟩
      · intro m hm
        obtain ⟨q1, q2⟩ := p2 m hm
        have hge : ∀ x, cur' = some x → ¬ strLt m.Timestamp x.Timestamp := q1
        cases hcur' : cur' with
        | none =>
          obtain ⟨hcn, hne⟩ := h3 hcur'
          refine ⟨fun c hc => (by rw [hcn] at hc; cases hc), ?_⟩
          intro e' he' r' hr' hf'
          rcases List.mem_cons.1 he' with he' | he'
          · subst he'
            have : r' = r := Except.ok.inj (hr'.symm.trans hr)
            rw [this] at hf'
            exact absurd hf' hne
          · exact q2 e' he' r' hr' hf'
        | some x =>
          obtain ⟨g1, g2⟩ := h2 x hcur'
          have hmx := hge x hcur'
          have hle : x.Timestamp ≤ m.Timestamp := not_lt.1 hmx
          refine ⟨?_, ?_⟩
          · intro c hc
            have := not_lt.1 (g1 c hc)
            exact not_lt.2 (le_trans this hle)
          · intro e' he' r' hr' hf'
            rcases List.mem_cons.1 he' with he' | he'
            · subst he'
              have : r' = r := Except.ok.inj (hr'.symm.trans hr)
              rw [this] at hf' ⊢
              have := not_lt.1 (g2 hf')
              exact not_lt.2 (le_trans this hle)
            · exact q2 e' he' r' hr' hf'
      · intro hn
        obtain ⟨hc', hne⟩ := p3 hn
        obtain ⟨hcn, hrf⟩ := h3 hc'
        refine ⟨hcn, ?_⟩
        intro e' he' r' hr'
        rcases List.mem_cons.1 he' with he' | he'
        · subst he'
          have : r' = r := Except.ok.inj (hr'.symm.trans hr)
          rw [this]; exact hrf
        · exact hne e' he' r' hr'
    obtain ⟨cur', hloop, h1, h2, h3⟩ := hloop
    rw [hloop]
    exact step cur' h1 h2 h3


theorem latestOfScan_eq_of_perm (f : GoString) (entries entries' : List (GoString × JObj))
    (hp : entries'.Perm entries) (hall : ∀ e ∈ entries, ∃ r, unmarshalAudit e.2 = .ok r)
    (hd : ∀ e1 ∈ entries, ∀ e2 ∈ entries, ∀ r1 r2, unmarshalAudit e1.2 = .ok r1 →
      unmarshalAudit e2.2 = .ok r2 → r1.FileID = f → r2.FileID = f →
      r1.Timestamp = r2.Timestamp → r1 = r2) :
    latestOfScan entries' f = latestOfScan entries f := by
  have hall' : ∀ e ∈ entries', ∃ r, unmarshalAudit e.2 = .ok r :=
    fun e he => hall e (hp.mem_iff.1 he)
  obtain ⟨res, hres, p1, p2, p3⟩ := latestLoop_spec f entries none hall
  obtain ⟨res', hres', q1, q2, q3⟩ := latestLoop_spec f entries' none hall'
  unfold latestOfScan
  rw [hres, hres']
  cases res with
  | none =>
    cases res' with
    | none => rfl
    | some m' =>
      rcases q1 m' rfl with h | ⟨e, he, hm, hf⟩
      · cases h
      · exact absurd hf ((p3 rfl).2 e (hp.mem_iff.1 he) m' hm)
  | some m =>
    cases res' with
    | none =>
      rcases p1 m rfl with h | ⟨e, he, hm, hf⟩
      · cases h
      · exact absurd hf ((q3 rfl).2 e (hp.mem_iff.2 he) m hm)
    | some m' =>
      rcases p1 m rfl with h | ⟨e, he, hm, hf⟩
      · cases h
      rcases q1 m' rfl with h | ⟨e', he', hm', hf'⟩
      · cases h
      have h1 := (p2 m rfl).2 e' (hp.mem_iff.1 he') m' hm' hf'
      have h2 := (q2 m' rfl).2 e (hp.mem_iff.2 he) m hm hf
      have hts : m'.Timestamp = m.Timestamp := by
        by_contra hne
        exact h1 (strLt_of_not h2 hne)
      have := hd e' (hp.mem_iff.1 he') e he m' m hm' hm hf' hf hts
      rw [this]



/-- C1: `GetLatestAuditStatus` returns the record with the maximum timestamp:
when the entries the `AUDIT_` scan yields hold, for `fileID`, the two records
`r1` and `r2` with `r1.Timestamp < r2.Timestamp` (and any records of other
files), the body of `GetLatestAuditStatus` returns `r2` on every permutation of
the sequence of entries. The records are the ones read back from the entries. -/
theorem GetLatestAuditStatus_max_timestamp (es : List (GoString × AuditRecord))
    (fileID : GoString) (r1 r2 : AuditRecord)
    (_h1 : r1 ∈ es.map (fun e => decodedAudit e.2))
    (h2 : r2 ∈ es.map (fun e => decodedAudit e.2))
    (_hf1 : r1.FileID = fileID) (hf2 : r2.FileID = fileID)
    (hlt : strLt r1.Timestamp r2.Timestamp)
    (hall : ∀ r ∈ es.map (fun e => decodedAudit e.2), r.FileID = fileID → r = r1 ∨ r = r2)
    (es' : List (GoString × AuditRecord)) (hp : es'.Perm es) :
    latestOfScan (es'.map (fun e => (e.1, marshalAudit e.2))) fileID = .ok r2 := by
  have hdec : ∀ e ∈ es'.map (fun e => (e.1, marshalAudit e.2)),
      ∃ r, unmarshalAudit e.2 = .ok r := by
    intro e he
    obtain ⟨x, _, hx⟩ := List.mem_map.1 he
    exact ⟨decodedAudit x.2, by rw [← hx]; exact unmarshalAudit_marshalAudit x.2⟩
  have hmem : ∀ m : AuditRecord,
      (∃ e ∈ es'.map (fun e => (e.1, marshalAudit e.2)), unmarshalAudit e.2 = .ok m) →
      m ∈ es.map (fun e => decodedAudit e.2) := by
    rintro m ⟨e, he, hm⟩
    obtain ⟨x, hx, hxe⟩ := List.mem_map.1 he
    rw [← hxe] at hm
    simp only [unmarshalAudit_marshalAudit, Except.ok.injEq] at hm
    exact List.mem_map.2 ⟨x, hp.mem_iff.1 hx, hm⟩
  have hr2 : ∃ e ∈ es'.map (fun e => (e.1, marshalAudit e.2)), unmarshalAudit e.2 = .ok r2 := by
    obtain ⟨x, hx, hx2⟩ := List.mem_map.1 h2
    refine ⟨(x.1, marshalAudit x.2), List.mem_map.2 ⟨x, hp.mem_iff.2 hx, rfl⟩, ?_⟩
    rw [← hx2]; exact unmarshalAudit_marshalAudit x.2
  obtain ⟨res, hres, p1, p2, p3⟩ := latestLoop_spec fileID _ none hdec
  unfold latestOfScan
  rw [hres]
  cases res with
  | none =>
    obtain ⟨e, he, hm⟩ := hr2
    exact absurd hf2 ((p3 rfl).2 e he r2 hm)
  | some m =>
    rcases p1 m rfl with h | ⟨e, he, hm, hf⟩
    · cases h
    obtain ⟨e2, he2, hm2⟩ := hr2
    have hge := (p2 m rfl).2 e2 he2 r2 hm2 hf2
    rcases hall m (hmem m ⟨e, he, hm⟩) hf with h | h
    · rw [h] at hge; exact absurd hlt hge
    · rw [h]

/-- The hypotheses of C1 hold for a scan with two records of file `f` and one of
file `g`, taken in another order than the one they are listed in. -/
theorem GetLatestAuditStatus_max_timestamp_witness :
    latestOfScan
      ([(ascii "AUDIT_f_2024-01-01T00:00:02Z",
          ({ ID := ascii "AUDIT_f_2024-01-01T00:00:02Z", FileID := ascii "f", UID := ascii "u",
             ProofHash := ascii "p2", Mu := ascii "m2", Status := ascii "MALICIOUS",
             Timestamp := ascii "2024-01-01T00:00:02Z" } : AuditRecord)),
        (ascii "AUDIT_g_2024-01-01T00:00:03Z",
          { ID := ascii "AUDIT_g_2024-01-01T00:00:03Z", FileID := ascii "g", UID := ascii "u",
            ProofHash := ascii "p3", Mu := ascii "m3", Status := ascii "SUCCESS",
            Timestamp := ascii "2024-01-01T00:00:03Z" }),
        (ascii "AUDIT_f_2024-01-01T00:00:01Z",
          { ID := ascii "AUDIT_f_2024-01-01T00:00:01Z", FileID := ascii "f", UID := ascii "u",
            ProofHash := ascii "p1", Mu := ascii "m1", Status := ascii "SUCCESS",
            Timestamp := ascii "2024-01-01T00:00:01Z" })].map
        (fun e => (e.1, marshalAudit e.2))) (ascii "f") =
      .ok { ID := ascii "AUDIT_f_2024-01-01T00:00:02Z", FileID := ascii "f", UID := ascii "u",
            ProofHash := ascii "p2", Mu := ascii "m2", Status := ascii "MALICIOUS",
            Timestamp := ascii "2024-01-01T00:00:02Z" } :=
  GetLatestAuditStatus_max_timestamp
    [(ascii "AUDIT_f_2024-01-01T00:00:01Z",
        { ID := ascii "AUDIT_f_2024-01-01T00:00:01Z", FileID := ascii "f", UID := ascii "u",
          ProofHash := ascii "p1", Mu := ascii "m1", Status := ascii "SUCCESS",
          Timestamp := ascii "2024-01-01T00:00:01Z" }),
      (ascii "AUDIT_f_2024-01-01T00:00:02Z",
        { ID := ascii "AUDIT_f_2024-01-01T00:00:02Z", FileID := ascii "f", UID := ascii "u",
          ProofHash := ascii "p2", Mu := ascii "m2", Status := ascii "MALICIOUS",
          Timestamp := ascii "2024-01-01T00:00:02Z" }),
      (ascii "AUDIT_g_2024-01-01T00:00:03Z",
        { ID := ascii "AUDIT_g_2024-01-01T00:00:03Z", FileID := ascii "g", UID := ascii "u",
          ProofHash := ascii "p3", Mu := ascii "m3", Status := ascii "SUCCESS",
          Timestamp := ascii "2024-01-01T00:00:03Z" })]
    (ascii "f")
    { ID := ascii "AUDIT_f_2024-01-01T00:00:01Z", FileID := ascii "f", UID := ascii "u",
      ProofHash := ascii "p1", Mu := ascii "m1", Status := ascii "SUCCESS",
      Timestamp := ascii "2024-01-01T00:00:01Z" }
    { ID := ascii "AUDIT_f_2024-01-01T00:00:02Z", FileID := ascii "f", UID := ascii "u",
      ProofHash := ascii "p2", Mu := ascii "m2", Status := ascii "MALICIOUS",
      Timestamp := ascii "2024-01-01T00:00:02Z" }
    (by decide) (by decide) rfl rfl (by decide) (by decide) _ (by decide)

/-! ## Audit records of files with valid UTF-8 names -/

theorem AuditClean_nil : AuditClean [] := by
  intro e he; simp at he

theorem AuditClean_PutState {l : Ledger} (h : AuditClean l) {k : GoString} {v : JObj}
    (hnew : inRange (ascii "AUDIT_") (ascii "AUE_") k →
      ∃ r : AuditRecord, (k, v) = (auditKey r.FileID r.Timestamp, marshalAudit r) ∧
        coerceUTF8 r.FileID = r.FileID ∧ coerceUTF8 r.Timestamp = r.Timestamp) :
    AuditClean (PutState l k v) := by
  intro e he hin
  rcases mem_PutState_sub he with he | he
  · subst he; exact hnew hin
  · exact h e he hin

theorem AuditClean_storeTagsLoop (uid fileID now : GoString) (tags : List tagInput) :
    ∀ l : Ledger, AuditClean l → AuditClean (storeTagsLoop uid fileID now tags l) := by
  induction tags with
  | nil => intro l h; exact h
  | cons t ts ih =>
    intro l h
    simp only [storeTagsLoop]
    apply ih
    apply AuditClean_PutState h
    intro hin
    exact absurd hin (ranges_of_tag (startsWith_tagKey _ _)).2.2.1

theorem AuditClean_commit {l : Ledger} (h : AuditClean l) (c : Call)
    (hc : utf8Audit c = true) : AuditClean (commit l c) := by
  unfold commit
  cases c with
  | createCryptoAnchor uid dfp sign man pk now =>
    simp only [invoke, CreateCryptoAnchor]
    split_ifs
    · exact h
    · exact AuditClean_PutState h
        (fun hin => absurd hin (ranges_of_anchor (startsWith_append _ _)).2.2.1)
  | recordVerificationResult uid vid status comment now =>
    simp only [invoke, RecordVerificationResult]
    split_ifs
    · exact h
    · exact h
    · exact AuditClean_PutState h
        (fun hin => absurd hin (ranges_of_ver (startsWith_verKey _ _)).2.2.1)
  | storeBlockTags uid fileID tagsJson now =>
    cases tagsJson with
    | none => exact h
    | some tags => exact AuditClean_storeTagsLoop uid fileID now tags l h
  | storeAuditResult uid fileID ph mu status now =>
    simp only [utf8Audit, Bool.and_eq_true, decide_eq_true_eq] at hc
    simp only [invoke, StoreAuditResult]
    split_ifs
    · exact h
    · exact AuditClean_PutState h (fun _ =>
        ⟨{ ID := auditKey fileID now, FileID := fileID, UID := uid, ProofHash := ph, Mu := mu,
           Status := status, Timestamp := now }, rfl, hc.1, hc.2⟩)
  | logDownload uid fileID userID allowed rh now =>
    simp only [invoke, LogDownload]
    exact AuditClean_PutState h
      (fun hin => absurd hin (ranges_of_dl (startsWith_dlKey _ _ _)).2.2.1)

theorem AuditClean_run (cs : List Call) : ∀ l : Ledger, AuditClean l →
    (∀ c ∈ cs, utf8Audit c = true) → AuditClean (run l cs) := by
  induction cs with
  | nil => intro l h _; exact h
  | cons c cs ih =>
    intro l h hcs
    exact ih _ (AuditClean_commit h c (hcs c (List.mem_cons_self _ _)))
      (fun c' hc' => hcs c' (List.mem_cons_of_mem _ hc'))

/-- C8 (as stated, refuted): two audits in the same second for the files `\xfe`
and `\xff` are stored under two keys, and both records read back with `FileID`
U+FFFD and the same `Timestamp`; `GetLatestAuditStatus` for U+FFFD returns the
one scanned first, and the other one when the scan is taken in the other
order. -/
theorem GetLatestAuditStatus_depends_on_scan_order :
    latestOfScan
        (GetStateByRange
          (run [] [.storeAuditResult (ascii "u") [0xfe] (ascii "p1") (ascii "m1")
                     (ascii "SUCCESS") (ascii "2024-01-01T00:00:00Z"),
                   .storeAuditResult (ascii "u") [0xff] (ascii "p2") (ascii "m2")
                     (ascii "MALICIOUS") (ascii "2024-01-01T00:00:00Z")])
          (ascii "AUDIT_") (ascii "AUE_"))
        [0xEF, 0xBF, 0xBD] =
      .ok { ID := ascii "AUDIT_" ++ [0xEF, 0xBF, 0xBD] ++ ascii "_2024-01-01T00:00:00Z",
            FileID := [0xEF, 0xBF, 0xBD], UID := ascii "u", ProofHash := ascii "p1",
            Mu := ascii "m1", Status := ascii "SUCCESS",
            Timestamp := ascii "2024-01-01T00:00:00Z" } ∧
    latestOfScan
        (GetStateByRange
          (run [] [.storeAuditResult (ascii "u") [0xfe] (ascii "p1") (ascii "m1")
                     (ascii "SUCCESS") (ascii "2024-01-01T00:00:00Z"),
                   .storeAuditResult (ascii "u") [0xff] (ascii "p2") (ascii "m2")
                     (ascii "MALICIOUS") (ascii "2024-01-01T00:00:00Z")])
          (ascii "AUDIT_") (ascii "AUE_")).reverse
        [0xEF, 0xBF, 0xBD] =
      .ok { ID := ascii "AUDIT_" ++ [0xEF, 0xBF, 0xBD] ++ ascii "_2024-01-01T00:00:00Z",
            FileID := [0xEF, 0xBF, 0xBD], UID := ascii "u", ProofHash := ascii "p2",
            Mu := ascii "m2", Status := ascii "MALICIOUS",
            Timestamp := ascii "2024-01-01T00:00:00Z" } := by
  decide

/-- C8 (amended): in every ledger reachable from the empty one through
invocations whose `StoreAuditResult` calls have a `fileID` that is valid UTF-8
(and a clock reading as `nowISO()` gives it), no two distinct entries of the
`AUDIT_` range hold records of the same file with the same timestamp, and
`GetLatestAuditStatus` returns what its body returns on every permutation of the
entries the scan yields. -/
theorem GetLatestAuditStatus_order_independent (cs : List Call)
    (hcs : ∀ c ∈ cs, utf8Audit c = true) (fileID : GoString) :
    (∀ e1 ∈ GetStateByRange (run [] cs) (ascii "AUDIT_") (ascii "AUE_"),
      ∀ e2 ∈ GetStateByRange (run [] cs) (ascii "AUDIT_") (ascii "AUE_"),
      ∀ r1 r2, unmarshalAudit e1.2 = .ok r1 → unmarshalAudit e2.2 = .ok r2 →
        r1.FileID = fileID → r2.FileID = fileID → r1.Timestamp = r2.Timestamp → e1 = e2) ∧
    (∀ scan' : List (GoString × JObj),
      scan'.Perm (GetStateByRange (run [] cs) (ascii "AUDIT_") (ascii "AUE_")) →
        latestOfScan scan' fileID = GetLatestAuditStatus (run [] cs) fileID) := by
  have hinv := Inv_run cs [] Inv_nil
  have hclean := AuditClean_run cs [] AuditClean_nil hcs
  have hdist : ∀ e1 ∈ GetStateByRange (run [] cs) (ascii "AUDIT_") (ascii "AUE_"),
      ∀ e2 ∈ GetStateByRange (run [] cs) (ascii "AUDIT_") (ascii "AUE_"),
      ∀ r1 r2, unmarshalAudit e1.2 = .ok r1 → unmarshalAudit e2.2 = .ok r2 →
        r1.FileID = fileID → r2.FileID = fileID → r1.Timestamp = r2.Timestamp → e1 = e2 := by
    intro e1 he1 e2 he2 r1 r2 hr1 hr2 hf1 hf2 hts
    obtain ⟨hm1, hin1⟩ := mem_GetStateByRange.1 he1
    obtain ⟨hm2, hin2⟩ := mem_GetStateByRange.1 he2
    obtain ⟨a1, ha1, hv1, hw1⟩ := hclean e1 hm1 hin1
    obtain ⟨a2, ha2, hv2, hw2⟩ := hclean e2 hm2 hin2
    have d1 : r1 = decodedAudit a1 := by
      rw [ha1] at hr1
      simp only [unmarshalAudit_marshalAudit, Except.ok.injEq] at hr1
      exact hr1.symm
    have d2 : r2 = decodedAudit a2 := by
      rw [ha2] at hr2
      simp only [unmarshalAudit_marshalAudit, Except.ok.injEq] at hr2
      exact hr2.symm
    have f1 : a1.FileID = fileID := by rw [← hf1, d1]; exact hv1.symm
    have f2 : a2.FileID = fileID := by rw [← hf2, d2]; exact hv2.symm
    have t12 : a1.Timestamp = a2.Timestamp := by
      have : (decodedAudit a1).Timestamp = (decodedAudit a2).Timestamp := by
        rw [← d1, ← d2]; exact hts
      simp only [decodedAudit] at this
      rw [hw1, hw2] at this
      exact this
    have hk : e1.1 = e2.1 := by rw [ha1, ha2]; simp only; rw [f1, f2, t12]
    have g1 := (GetState_eq_some_iff hinv.1 e1.1 e1.2).2 hm1
    have g2 := (GetState_eq_some_iff hinv.1 e2.1 e2.2).2 hm2
    rw [hk, g2] at g1
    exact Prod.ext hk (Option.some.inj g1).symm
  have hall : ∀ e ∈ GetStateByRange (run [] cs) (ascii "AUDIT_") (ascii "AUE_"),
      ∃ r, unmarshalAudit e.2 = .ok r := by
    intro e he
    obtain ⟨hm, hin⟩ := mem_GetStateByRange.1 he
    obtain ⟨a, ha, _⟩ := audit_of_WellFormed (hinv.2 e hm) hin
    exact ⟨decodedAudit a, by rw [ha]; exact unmarshalAudit_marshalAudit a⟩
  refine ⟨hdist, ?_⟩
  intro scan' hp
  unfold GetLatestAuditStatus
  apply latestOfScan_eq_of_perm fileID _ _ hp hall
  intro e1 he1 e2 he2 r1 r2 hr1 hr2 hf1 hf2 hts
  have := hdist e1 he1 e2 he2 r1 r2 hr1 hr2 hf1 hf2 hts
  rw [this] at hr1
  exact Except.ok.inj (hr1.symm.trans hr2)

/-- The hypothesis of the amended C8 holds for two audits of file `f` one second
apart and an audit of file `g`. -/
theorem GetLatestAuditStatus_order_independent_witness :
    (∀ e1 ∈ GetStateByRange
        (run [] [.storeAuditResult (ascii "u") (ascii "f") (ascii "p1") (ascii "m1")
                   (ascii "SUCCESS") (ascii "2024-01-01T00:00:00Z"),
                 .storeAuditResult (ascii "u") (ascii "g") (ascii "p3") (ascii "m3")
                   (ascii "SUCCESS") (ascii "2024-01-01T00:00:00Z"),
                 .storeAuditResult (ascii "u") (ascii "f") (ascii "p2") (ascii "m2")
                   (ascii "MALICIOUS") (ascii "2024-01-01T00:00:01Z")])
        (ascii "AUDIT_") (ascii "AUE_"),
      ∀ e2 ∈ GetStateByRange
        (run [] [.storeAuditResult (ascii "u") (ascii "f") (ascii "p1") (ascii "m1")
                   (ascii "SUCCESS") (ascii "2024-01-01T00:00:00Z"),
                 .storeAuditResult (ascii "u") (ascii "g") (ascii "p3") (ascii "m3")
                   (ascii "SUCCESS") (ascii "2024-01-01T00:00:00Z"),
                 .storeAuditResult (ascii "u") (ascii "f") (ascii "p2") (ascii "m2")
                   (ascii "MALICIOUS") (ascii "2024-01-01T00:00:01Z")])
        (ascii "AUDIT_") (ascii "AUE_"),
      ∀ r1 r2, unmarshalAudit e1.2 = .ok r1 → unmarshalAudit e2.2 = .ok r2 →
        r1.FileID = ascii "f" → r2.FileID = ascii "f" → r1.Timestamp = r2.Timestamp →
        e1 = e2) ∧
    (∀ scan' : List (GoString × JObj),
      scan'.Perm (GetStateByRange
        (run [] [.storeAuditResult (ascii "u") (ascii "f") (ascii "p1") (ascii "m1")
                   (ascii "SUCCESS") (ascii "2024-01-01T00:00:00Z"),
                 .storeAuditResult (ascii "u") (ascii "g") (ascii "p3") (ascii "m3")
                   (ascii "SUCCESS") (ascii "2024-01-01T00:00:00Z"),
                 .storeAuditResult (ascii "u") (ascii "f") (ascii "p2") (ascii "m2")
                   (ascii "MALICIOUS") (ascii "2024-01-01T00:00:01Z")])
        (ascii "AUDIT_") (ascii "AUE_")) →
        latestOfScan scan' (ascii "f") =
          GetLatestAuditStatus
            (run [] [.storeAuditResult (ascii "u") (ascii "f") (ascii "p1") (ascii "m1")
                       (ascii "SUCCESS") (ascii "2024-01-01T00:00:00Z"),
                     .storeAuditResult (ascii "u") (ascii "g") (ascii "p3") (ascii "m3")
                       (ascii "SUCCESS") (ascii "2024-01-01T00:00:00Z"),
                     .storeAuditResult (ascii "u") (ascii "f") (ascii "p2") (ascii "m2")
                       (ascii "MALICIOUS") (ascii "2024-01-01T00:00:01Z")])
            (ascii "f")) :=
  GetLatestAuditStatus_order_independent _ (by decide) (ascii "f")


/-! ## Tags: what is stored under a tag key -/

theorem find?_append_singleton {α : Type} (p : α → Bool) (xs : List α) (x : α) :
    (xs ++ [x]).find? p = match xs.find? p with
      | some y => some y
      | none => if p x then some x else none := by
  induction xs with
  | nil => cases hx : p x <;> simp [List.find?, hx]
  | cons y ys ih =>
    simp only [List.cons_append, List.find?]
    cases hy : p y with
    | true => simp
    | false => simpa using ih

theorem GetState_storeTagsLoop (uid fileID now : GoString) (f : GoString) (i : Int)
    (tags : List tagInput) : ∀ l : Ledger,
    GetState (storeTagsLoop uid fileID now tags l) (tagKey f i) =
      match ((tags.map (fun t : tagInput =>
          ({ ID := tagKey fileID t.BlockIndex, UID := uid, FileID := fileID,
             BlockIndex := t.BlockIndex, TagValue := t.TagValue, CreatedAt := now } : TagRecord))).reverse.find?
          (fun t => decide (t.FileID = f ∧ t.BlockIndex = i))) with
      | some t => some (marshalTag t)
      | none => GetState l (tagKey f i) := by
  induction tags with
  | nil => intro l; simp [storeTagsLoop]
  | cons t ts ih =>
    intro l
    simp only [storeTagsLoop, List.map_cons, List.reverse_cons]
    rw [ih, find?_append_singleton]
    cases hfind : (List.map (fun t : tagInput =>
          ({ ID := tagKey fileID t.BlockIndex, UID := uid, FileID := fileID,
             BlockIndex := t.BlockIndex, TagValue := t.TagValue, CreatedAt := now } : TagRecord)) ts).reverse.find?
          (fun t => decide (t.FileID = f ∧ t.BlockIndex = i)) with
    | some y => rfl
    | none =>
      simp only
      by_cases hk : fileID = f ∧ t.BlockIndex = i
      · obtain ⟨h1, h2⟩ := hk
        subst h1; subst h2
        simp [GetState_PutState_same]
      · have hne : tagKey f i ≠ tagKey fileID t.BlockIndex := by
          intro h
          obtain ⟨h1, h2⟩ := tagKey_injective h
          exact hk ⟨h1.symm, h2.symm⟩
        rw [GetState_PutState_other _ _ _ _ hne]
        simp [hk]

theorem ne_of_inRange {s e k k' : GoString} (h : inRange s e k) (h' : ¬ inRange s e k') :
    k ≠ k' := by
  intro hk; rw [hk] at h; exact h' h

theorem ne_of_not_inRange {s e k k' : GoString} (h : ¬ inRange s e k) (h' : inRange s e k') :
    k ≠ k' := by
  intro hk; rw [hk] at h; exact h h'

theorem GetState_commit_tagKey (l : Ledger) (c : Call) (f : GoString) (i : Int)
    (hc : ∀ uid fileID tags now, c ≠ .storeBlockTags uid fileID (some tags) now) :
    GetState (commit l c) (tagKey f i) = GetState l (tagKey f i) := by
  have hin := (ranges_of_tag (startsWith_tagKey f i)).2.1
  unfold commit
  cases c with
  | createCryptoAnchor uid dfp sign man pk now =>
    simp only [invoke, CreateCryptoAnchor]
    split_ifs
    · rfl
    · exact GetState_PutState_other _ _ _ _
        (ne_of_inRange hin (ranges_of_anchor (startsWith_append _ _)).2.1)
  | recordVerificationResult uid vid status comment now =>
    simp only [invoke, RecordVerificationResult]
    split_ifs
    · rfl
    · rfl
    · exact GetState_PutState_other _ _ _ _
        (ne_of_inRange hin (ranges_of_ver (startsWith_verKey _ _)).2.1)
  | storeBlockTags uid fileID tagsJson now =>
    cases tagsJson with
    | none => rfl
    | some tags => exact absurd rfl (hc uid fileID tags now)
  | storeAuditResult uid fileID ph mu status now =>
    simp only [invoke, StoreAuditResult]
    split_ifs
    · rfl
    · exact GetState_PutState_other _ _ _ _
        (ne_of_inRange hin (ranges_of_audit (startsWith_auditKey _ _)).2.1)
  | logDownload uid fileID userID allowed rh now =>
    simp only [invoke, LogDownload]
    exact GetState_PutState_other _ _ _ _
      (ne_of_inRange hin (ranges_of_dl (startsWith_dlKey _ _ _)).2.1)

theorem GetState_run_tagKey (f : GoString) (i : Int) (cs : List Call) : ∀ l : Ledger,
    GetState (run l cs) (tagKey f i) =
      match lastTag f i cs with
      | some t => some (marshalTag t)
      | none => GetState l (tagKey f i) := by
  induction cs with
  | nil => intro l; simp [run, lastTag, tagWrites]
  | cons c cs ih =>
    intro l
    rw [run_cons, ih]
    by_cases hc : ∃ uid fileID tags now, c = .storeBlockTags uid fileID (some tags) now
    · obtain ⟨uid, fileID, tags, now, rfl⟩ := hc
      have hcommit : commit l (.storeBlockTags uid fileID (some tags) now) =
          storeTagsLoop uid fileID now tags l := rfl
      rw [hcommit, GetState_storeTagsLoop]
      simp only [lastTag, tagWrites, List.reverse_append, List.find?_append]
      cases (tagWrites cs).reverse.find? (fun t => decide (t.FileID = f ∧ t.BlockIndex = i)) with
      | some y => simp
      | none => simp
    · have hc' : ∀ uid fileID tags now, c ≠ .storeBlockTags uid fileID (some tags) now :=
        fun uid fileID tags now h => hc ⟨uid, fileID, tags, now, h⟩
      rw [GetState_commit_tagKey l c f i hc']
      have : lastTag f i (c :: cs) = lastTag f i cs := by
        unfold lastTag
        cases c with
        | storeBlockTags uid fileID tagsJson now =>
          cases tagsJson with
          | none => rfl
          | some tags => exact absurd rfl (hc' uid fileID tags now)
        | _ => rfl
      rw [this]

/-! ## The keys of a ledger and the writes that made them -/

theorem puts_startsWith {c : Call} {kd : Kind} {k : GoString} (h : (kd, k) ∈ puts c) :
    startsWith (keyStart kd) k := by
  cases c with
  | createCryptoAnchor uid dfp sign man pk now =>
    simp only [puts, List.mem_singleton, Prod.mk.injEq] at h
    obtain ⟨rfl, rfl⟩ := h
    exact startsWith_append _ _
  | recordVerificationResult uid vid status comment now =>
    simp only [puts, List.mem_singleton, Prod.mk.injEq] at h
    obtain ⟨rfl, rfl⟩ := h
    exact startsWith_verKey _ _
  | storeBlockTags uid fileID tagsJson now =>
    cases tagsJson with
    | none => simp [puts] at h
    | some tags =>
      simp only [puts, List.mem_map, Prod.mk.injEq] at h
      obtain ⟨t, _, rfl, rfl⟩ := h
      exact startsWith_tagKey _ _
  | storeAuditResult uid fileID ph mu status now =>
    simp only [puts, List.mem_singleton, Prod.mk.injEq] at h
    obtain ⟨rfl, rfl⟩ := h
    exact startsWith_auditKey _ _
  | logDownload uid fileID userID allowed rh now =>
    simp only [puts, List.mem_singleton, Prod.mk.injEq] at h
    obtain ⟨rfl, rfl⟩ := h
    exact startsWith_dlKey _ _ _

theorem written_startsWith (cs : List Call) : ∀ (l : Ledger) {kd : Kind} {k : GoString},
    (kd, k) ∈ written l cs → startsWith (keyStart kd) k := by
  induction cs with
  | nil => intro l kd k h; simp [written] at h
  | cons c cs ih =>
    intro l kd k h
    simp only [written] at h
    cases hc : invoke l c with
    | error e => rw [hc] at h; exact ih l h
    | ok l' =>
      rw [hc] at h
      rcases List.mem_append.1 h with h | h
      · exact puts_startsWith h
      · exact ih l' h

theorem keys_storeTagsLoop (uid fileID now : GoString) (k : GoString) (tags : List tagInput) :
    ∀ l : Ledger, k ∈ keys (storeTagsLoop uid fileID now tags l) ↔
      k ∈ keys l ∨ ∃ t ∈ tags, k = tagKey fileID t.BlockIndex := by
  induction tags with
  | nil => intro l; simp [storeTagsLoop]
  | cons t ts ih =>
    intro l
    simp only [storeTagsLoop]
    rw [ih, keys_PutState]
    simp only [List.mem_cons, exists_eq_or_imp]
    tauto

theorem keys_invoke {l l' : Ledger} {c : Call} (hc : invoke l c = .ok l') (k : GoString) :
    k ∈ keys l' ↔ k ∈ keys l ∨ ∃ kd, (kd, k) ∈ puts c := by
  cases c with
  | createCryptoAnchor uid dfp sign man pk now =>
    simp only [invoke, CreateCryptoAnchor] at hc
    split_ifs at hc
    cases hc
    rw [keys_PutState]
    simp [puts, or_comm]
  | recordVerificationResult uid vid status comment now =>
    simp only [invoke, RecordVerificationResult] at hc
    split_ifs at hc
    cases hc
    rw [keys_PutState]
    simp [puts, or_comm]
  | storeBlockTags uid fileID tagsJson now =>
    cases tagsJson with
    | none => simp [invoke, StoreBlockTags] at hc
    | some tags =>
      simp only [invoke, StoreBlockTags] at hc
      cases hc
      rw [keys_storeTagsLoop]
      simp only [puts, List.mem_map, Prod.mk.injEq]
      constructor
      · rintro (h | ⟨t, ht, rfl⟩)
        · exact Or.inl h
        · exact Or.inr ⟨Kind.tag, t, ht, rfl, rfl⟩
      · rintro (h | ⟨kd, t, ht, _, rfl⟩)
        · exact Or.inl h
        · exact Or.inr ⟨t, ht, rfl⟩
  | storeAuditResult uid fileID ph mu status now =>
    simp only [invoke, StoreAuditResult] at hc
    split_ifs at hc
    cases hc
    rw [keys_PutState]
    simp [puts, or_comm]
  | logDownload uid fileID userID allowed rh now =>
    simp only [invoke, LogDownload] at hc
    cases hc
    rw [keys_PutState]
    simp [puts, or_comm]

theorem keys_run (k : GoString) (cs : List Call) : ∀ l : Ledger,
    k ∈ keys (run l cs) ↔ k ∈ keys l ∨ ∃ kd, (kd, k) ∈ written l cs := by
  induction cs with
  | nil => intro l; simp [run, written]
  | cons c cs ih =>
    intro l
    rw [run_cons, ih]
    simp only [commit, written]
    cases hc : invoke l c with
    | error e => rfl
    | ok l' =>
      simp only [keys_invoke hc, List.mem_append]
      constructor
      · rintro ((h | ⟨kd, h⟩) | ⟨kd, h⟩)
        · exact Or.inl h
        · exact Or.inr ⟨kd, Or.inl h⟩
        · exact Or.inr ⟨kd, Or.inr h⟩
      · rintro (h | ⟨kd, h | h⟩)
        · exact Or.inl (Or.inl h)
        · exact Or.inl (Or.inr ⟨kd, h⟩)
        · exact Or.inr ⟨kd, h⟩

/-- The scan ranges in which a key with the prefix of a kind lies. -/
theorem ranges_of_kind {kd : Kind} {k : GoString} (h : startsWith (keyStart kd) k) :
    (inRange (ascii "TAG_") (ascii "TAH_") k ↔ kd = .tag) ∧ (inRange (ascii "AUDIT_") (ascii "AUE_") k ↔ kd = .audit) ∧
      (inRange (ascii "VER_") (ascii "VES_") k ↔ kd = .ver) ∧ (inRange (ascii "DL_") (ascii "DM_") k ↔ kd = .dl) := by
  cases kd with
  | anchor =>
    obtain ⟨h1, h2, h3, h4⟩ := ranges_of_anchor h
    simp [h1, h2, h3, h4]
  | ver =>
    obtain ⟨h1, h2, h3, h4⟩ := ranges_of_ver h
    simp [h1, h2, h3, h4]
  | tag =>
    obtain ⟨h1, h2, h3, h4⟩ := ranges_of_tag h
    simp [h1, h2, h3, h4]
  | audit =>
    obtain ⟨h1, h2, h3, h4⟩ := ranges_of_audit h
    simp [h1, h2, h3, h4]
  | dl =>
    obtain ⟨h1, h2, h3, h4⟩ := ranges_of_dl h
    simp [h1, h2, h3, h4]

/-- C5: in every ledger reachable from the empty one through the contract's
operations, the keys in the range `TAG_`..`TAH_` are exactly the keys written by
`StoreBlockTags`, those in `AUDIT_`..`AUE_` exactly the keys written by
`StoreAuditResult`, those in `VER_`..`VES_` exactly the keys written by
`RecordVerificationResult`, those in `DL_`..`DM_` exactly the keys written by
`LogDownload`; and a key written by an operation of one kind (`CreateCryptoAnchor`
included) lies in no scan range of another kind. -/
theorem scan_ranges_select_one_kind (cs : List Call) (k : GoString) :
    ((k ∈ keys (run [] cs) ∧ inRange (ascii "TAG_") (ascii "TAH_") k) ↔ (Kind.tag, k) ∈ written [] cs) ∧
    ((k ∈ keys (run [] cs) ∧ inRange (ascii "AUDIT_") (ascii "AUE_") k) ↔ (Kind.audit, k) ∈ written [] cs) ∧
    ((k ∈ keys (run [] cs) ∧ inRange (ascii "VER_") (ascii "VES_") k) ↔ (Kind.ver, k) ∈ written [] cs) ∧
    ((k ∈ keys (run [] cs) ∧ inRange (ascii "DL_") (ascii "DM_") k) ↔ (Kind.dl, k) ∈ written [] cs) ∧
    (∀ kd, (kd, k) ∈ written [] cs →
      (inRange (ascii "TAG_") (ascii "TAH_") k ↔ kd = .tag) ∧ (inRange (ascii "AUDIT_") (ascii "AUE_") k ↔ kd = .audit) ∧
      (inRange (ascii "VER_") (ascii "VES_") k ↔ kd = .ver) ∧ (inRange (ascii "DL_") (ascii "DM_") k ↔ kd = .dl)) := by
  have hk : k ∈ keys (run [] cs) ↔ ∃ kd, (kd, k) ∈ written [] cs := by
    rw [keys_run]; simp [keys]
  have hr : ∀ kd, (kd, k) ∈ written [] cs →
      (inRange (ascii "TAG_") (ascii "TAH_") k ↔ kd = .tag) ∧ (inRange (ascii "AUDIT_") (ascii "AUE_") k ↔ kd = .audit) ∧
      (inRange (ascii "VER_") (ascii "VES_") k ↔ kd = .ver) ∧ (inRange (ascii "DL_") (ascii "DM_") k ↔ kd = .dl) :=
    fun kd h => ranges_of_kind (written_startsWith cs [] h)
  refine ⟨?_, ?_, ?_, ?_, hr⟩
  · constructor
    · rintro ⟨h1, h2⟩
      obtain ⟨kd, hkd⟩ := hk.1 h1
      have := (hr kd hkd).1.1 h2
      rw [this] at hkd; exact hkd
    · intro h; exact ⟨hk.2 ⟨_, h⟩, (hr _ h).1.2 rfl⟩
  · constructor
    · rintro ⟨h1, h2⟩
      obtain ⟨kd, hkd⟩ := hk.1 h1
      have := (hr kd hkd).2.1.1 h2
      rw [this] at hkd; exact hkd
    · intro h; exact ⟨hk.2 ⟨_, h⟩, (hr _ h).2.1.2 rfl⟩
  · constructor
    · rintro ⟨h1, h2⟩
      obtain ⟨kd, hkd⟩ := hk.1 h1
      have := (hr kd hkd).2.2.1.1 h2
      rw [this] at hkd; exact hkd
    · intro h; exact ⟨hk.2 ⟨_, h⟩, (hr _ h).2.2.1.2 rfl⟩
  · constructor
    · rintro ⟨h1, h2⟩
      obtain ⟨kd, hkd⟩ := hk.1 h1
      have := (hr kd hkd).2.2.2.1 h2
      rw [this] at hkd; exact hkd
    · intro h; exact ⟨hk.2 ⟨_, h⟩, (hr _ h).2.2.2.2 rfl⟩




/-! ## Audit results -/

theorem StoreAuditResult_ok (l : Ledger) (uid fileID ph mu status now : GoString)
    (hst : status = ascii "SUCCESS" ∨ status = ascii "MALICIOUS") :
    StoreAuditResult l uid fileID ph mu status now =
      .ok (PutState l (auditKey fileID now)
        (marshalAudit { ID := auditKey fileID now, FileID := fileID, UID := uid,
                        ProofHash := ph, Mu := mu, Status := status, Timestamp := now })) := by
  unfold StoreAuditResult
  rw [if_neg]
  intro h
  rcases hst with h1 | h1
  · exact h.1 h1
  · exact h.2 h1

/-- C2 (as stated, refuted): a second `StoreAuditResult` for the same file within
the same second of the clock replaces the audit record stored by the first, and
the number of audit records stays one. -/
theorem StoreAuditResult_same_second_overwrites :
    GetStateByRange
        (run [] [.storeAuditResult (ascii "u") (ascii "f") (ascii "p1") (ascii "m1")
                   (ascii "SUCCESS") (ascii "2024-01-01T00:00:00Z")])
        (ascii "AUDIT_") (ascii "AUE_") =
      [(ascii "AUDIT_f_2024-01-01T00:00:00Z",
        marshalAudit { ID := ascii "AUDIT_f_2024-01-01T00:00:00Z", FileID := ascii "f", UID := ascii "u",
                       ProofHash := ascii "p1", Mu := ascii "m1", Status := ascii "SUCCESS",
                       Timestamp := ascii "2024-01-01T00:00:00Z" })] ∧
    StoreAuditResult
        (run [] [.storeAuditResult (ascii "u") (ascii "f") (ascii "p1") (ascii "m1")
                   (ascii "SUCCESS") (ascii "2024-01-01T00:00:00Z")])
        (ascii "u") (ascii "f") (ascii "p2") (ascii "m2") (ascii "MALICIOUS")
        (ascii "2024-01-01T00:00:00Z") =
      .ok [(ascii "AUDIT_f_2024-01-01T00:00:00Z",
        marshalAudit { ID := ascii "AUDIT_f_2024-01-01T00:00:00Z", FileID := ascii "f", UID := ascii "u",
                       ProofHash := ascii "p2", Mu := ascii "m2", Status := ascii "MALICIOUS",
                       Timestamp := ascii "2024-01-01T00:00:00Z" })] ∧
    (GetStateByRange
        [(ascii "AUDIT_f_2024-01-01T00:00:00Z",
          marshalAudit { ID := ascii "AUDIT_f_2024-01-01T00:00:00Z", FileID := ascii "f", UID := ascii "u",
                         ProofHash := ascii "p2", Mu := ascii "m2", Status := ascii "MALICIOUS",
                         Timestamp := ascii "2024-01-01T00:00:00Z" })]
        (ascii "AUDIT_") (ascii "AUE_")).length = 1 := by
  decide

/-- C2 (amended): on every world state a `StoreAuditResult` with a valid status
succeeds, stores its record under the key `AUDIT_<fileID>_<now>` and leaves the
value of every other key as it was; when that key was absent the number of audit
records grows by exactly one, and when it was present (same file, same clock
reading) its record is replaced and the number stays the same. -/
theorem StoreAuditResult_writes_one_key (l : Ledger) (hs : Sorted l)
    (uid fileID ph mu status now : GoString)
    (hst : status = ascii "SUCCESS" ∨ status = ascii "MALICIOUS") :
    ∃ l', StoreAuditResult l uid fileID ph mu status now = .ok l' ∧
      GetState l' (auditKey fileID now) =
        some (marshalAudit { ID := auditKey fileID now, FileID := fileID, UID := uid,
                             ProofHash := ph, Mu := mu, Status := status, Timestamp := now }) ∧
      (∀ k, k ≠ auditKey fileID now → GetState l' k = GetState l k) ∧
      (GetState l (auditKey fileID now) = none →
        (GetStateByRange l' (ascii "AUDIT_") (ascii "AUE_")).length =
          (GetStateByRange l (ascii "AUDIT_") (ascii "AUE_")).length + 1) ∧
      (GetState l (auditKey fileID now) ≠ none →
        (GetStateByRange l' (ascii "AUDIT_") (ascii "AUE_")).length =
          (GetStateByRange l (ascii "AUDIT_") (ascii "AUE_")).length) := by
  refine ⟨_, StoreAuditResult_ok l uid fileID ph mu status now hst, ?_, ?_, ?_, ?_⟩
  · exact GetState_PutState_same _ _ _
  · intro k hk; exact GetState_PutState_other _ _ _ _ hk
  · intro hn
    exact length_scan_PutState_new _ _ _ _ _
      (ranges_of_audit (startsWith_auditKey fileID now)).2.2.1 hn
  · intro hn
    exact length_scan_PutState_old hs _ _ _ _ hn

/-- The hypotheses of the amended C2 hold for a ledger with one audit record and
a call one second later. -/
theorem StoreAuditResult_writes_one_key_witness :
    ∃ l', StoreAuditResult
        [(ascii "AUDIT_f_2024-01-01T00:00:00Z",
          marshalAudit { ID := ascii "AUDIT_f_2024-01-01T00:00:00Z", FileID := ascii "f", UID := ascii "u",
                         ProofHash := ascii "p1", Mu := ascii "m1", Status := ascii "SUCCESS",
                         Timestamp := ascii "2024-01-01T00:00:00Z" })]
        (ascii "u") (ascii "f") (ascii "p2") (ascii "m2") (ascii "MALICIOUS")
        (ascii "2024-01-01T00:00:01Z") = .ok l' ∧
      GetState l' (auditKey (ascii "f") (ascii "2024-01-01T00:00:01Z")) =
        some (marshalAudit { ID := auditKey (ascii "f") (ascii "2024-01-01T00:00:01Z"), FileID := ascii "f", UID := ascii "u",
                             ProofHash := ascii "p2", Mu := ascii "m2", Status := ascii "MALICIOUS",
                             Timestamp := ascii "2024-01-01T00:00:01Z" }) ∧
      (∀ k, k ≠ auditKey (ascii "f") (ascii "2024-01-01T00:00:01Z") → GetState l' k =
        GetState [(ascii "AUDIT_f_2024-01-01T00:00:00Z",
          marshalAudit { ID := ascii "AUDIT_f_2024-01-01T00:00:00Z", FileID := ascii "f", UID := ascii "u",
                         ProofHash := ascii "p1", Mu := ascii "m1", Status := ascii "SUCCESS",
                         Timestamp := ascii "2024-01-01T00:00:00Z" })] k) ∧
      (GetState [(ascii "AUDIT_f_2024-01-01T00:00:00Z",
          marshalAudit { ID := ascii "AUDIT_f_2024-01-01T00:00:00Z", FileID := ascii "f", UID := ascii "u",
                         ProofHash := ascii "p1", Mu := ascii "m1", Status := ascii "SUCCESS",
                         Timestamp := ascii "2024-01-01T00:00:00Z" })]
          (auditKey (ascii "f") (ascii "2024-01-01T00:00:01Z")) = none →
        (GetStateByRange l' (ascii "AUDIT_") (ascii "AUE_")).length =
          (GetStateByRange [(ascii "AUDIT_f_2024-01-01T00:00:00Z",
            marshalAudit { ID := ascii "AUDIT_f_2024-01-01T00:00:00Z", FileID := ascii "f", UID := ascii "u",
                           ProofHash := ascii "p1", Mu := ascii "m1", Status := ascii "SUCCESS",
                           Timestamp := ascii "2024-01-01T00:00:00Z" })] (ascii "AUDIT_") (ascii "AUE_")).length + 1) ∧
      (GetState [(ascii "AUDIT_f_2024-01-01T00:00:00Z",
          marshalAudit { ID := ascii "AUDIT_f_2024-01-01T00:00:00Z", FileID := ascii "f", UID := ascii "u",
                         ProofHash := ascii "p1", Mu := ascii "m1", Status := ascii "SUCCESS",
                         Timestamp := ascii "2024-01-01T00:00:00Z" })]
          (auditKey (ascii "f") (ascii "2024-01-01T00:00:01Z")) ≠ none →
        (GetStateByRange l' (ascii "AUDIT_") (ascii "AUE_")).length =
          (GetStateByRange [(ascii "AUDIT_f_2024-01-01T00:00:00Z",
            marshalAudit { ID := ascii "AUDIT_f_2024-01-01T00:00:00Z", FileID := ascii "f", UID := ascii "u",
                           ProofHash := ascii "p1", Mu := ascii "m1", Status := ascii "SUCCESS",
                           Timestamp := ascii "2024-01-01T00:00:00Z" })] (ascii "AUDIT_") (ascii "AUE_")).length) :=
  StoreAuditResult_writes_one_key _ (by simp [Sorted]) (ascii "u") (ascii "f") (ascii "p2") (ascii "m2") (ascii "MALICIOUS")
    (ascii "2024-01-01T00:00:01Z") (by decide)

/-- C4: `StoreAuditResult` returns an error exactly when `status` is neither
`SUCCESS` nor `MALICIOUS`; a transaction that returns this error leaves the
ledger as it was; and in every ledger reachable from the empty one through the
contract's operations every entry of the `AUDIT_` range decodes to an audit
record whose `Status` is `SUCCESS` or `MALICIOUS`. -/
theorem StoreAuditResult_error_iff_invalid_status (l : Ledger)
    (uid fileID ph mu status now : GoString) :
    ((∃ e, StoreAuditResult l uid fileID ph mu status now = .error e) ↔
      (status ≠ ascii "SUCCESS" ∧ status ≠ ascii "MALICIOUS")) ∧
    ((∃ e, StoreAuditResult l uid fileID ph mu status now = .error e) →
      commit l (.storeAuditResult uid fileID ph mu status now) = l) ∧
    (∀ cs : List Call, ∀ e ∈ GetStateByRange (run [] cs) (ascii "AUDIT_") (ascii "AUE_"),
      ∃ r, unmarshalAudit e.2 = .ok r ∧
        (r.Status = ascii "SUCCESS" ∨ r.Status = ascii "MALICIOUS")) := by
  refine ⟨?_, ?_, ?_⟩
  · unfold StoreAuditResult
    split_ifs with h
    · simp [h]
    · simp [h]
  · rintro ⟨e, he⟩
    simp [commit, invoke, he]
  · intro cs e he
    have hinv := Inv_run cs [] Inv_nil
    obtain ⟨hm, hin⟩ := mem_GetStateByRange.1 he
    obtain ⟨r, hr, _, hst⟩ := audit_of_WellFormed (hinv.2 e hm) hin
    refine ⟨decodedAudit r, by rw [hr]; exact unmarshalAudit_marshalAudit r, ?_⟩
    rcases hst with h | h
    · left
      show coerceUTF8 r.Status = ascii "SUCCESS"
      rw [h]; decide
    · right
      show coerceUTF8 r.Status = ascii "MALICIOUS"
      rw [h]; decide

/-- C6 (as stated, refuted): from the empty ledger one `StoreAuditResult` gives
the file an audit record while no tag is anchored for it. -/
theorem StoreAuditResult_without_tags :
    GetLatestAuditStatus
        (run [] [.storeAuditResult (ascii "u") (ascii "f") (ascii "p1") (ascii "m1")
                   (ascii "SUCCESS") (ascii "2024-01-01T00:00:00Z")]) (ascii "f") =
      .ok { ID := ascii "AUDIT_f_2024-01-01T00:00:00Z", FileID := ascii "f", UID := ascii "u", ProofHash := ascii "p1",
            Mu := ascii "m1", Status := ascii "SUCCESS", Timestamp := ascii "2024-01-01T00:00:00Z" } ∧
    GetTagsForFile
        (run [] [.storeAuditResult (ascii "u") (ascii "f") (ascii "p1") (ascii "m1")
                   (ascii "SUCCESS") (ascii "2024-01-01T00:00:00Z")]) (ascii "f") =
      .ok [] := by
  decide

/-- C6 (amended): the contract does not require a tag before an audit record:
on every ledger `StoreAuditResult` with a valid status succeeds for any
`fileID`, whatever tags are anchored; it stores its record under the key
`AUDIT_<fileID>_<now>` and leaves the entries of the `TAG_` range, hence what
`GetTagsForFile` returns for every file, as they were. -/
theorem StoreAuditResult_ignores_tags (l : Ledger) (uid fileID ph mu status now : GoString)
    (hst : status = ascii "SUCCESS" ∨ status = ascii "MALICIOUS") :
    ∃ l', StoreAuditResult l uid fileID ph mu status now = .ok l' ∧
      GetState l' (auditKey fileID now) =
        some (marshalAudit { ID := auditKey fileID now, FileID := fileID, UID := uid,
                             ProofHash := ph, Mu := mu, Status := status, Timestamp := now }) ∧
      GetStateByRange l' (ascii "TAG_") (ascii "TAH_") =
        GetStateByRange l (ascii "TAG_") (ascii "TAH_") ∧
      (∀ f, GetTagsForFile l' f = GetTagsForFile l f) := by
  have hscan := GetStateByRange_PutState_out l (ascii "TAG_") (ascii "TAH_")
    (auditKey fileID now)
    (marshalAudit { ID := auditKey fileID now, FileID := fileID, UID := uid,
                    ProofHash := ph, Mu := mu, Status := status, Timestamp := now })
    (ranges_of_audit (startsWith_auditKey fileID now)).2.1
  refine ⟨_, StoreAuditResult_ok l uid fileID ph mu status now hst,
    GetState_PutState_same _ _ _, hscan, ?_⟩
  intro f
  unfold GetTagsForFile
  rw [hscan]

/-- The hypothesis of the amended C6 holds for a first audit on the empty
ledger. -/
theorem StoreAuditResult_ignores_tags_witness :
    ∃ l', StoreAuditResult [] (ascii "u") (ascii "f") (ascii "p1") (ascii "m1")
        (ascii "SUCCESS") (ascii "2024-01-01T00:00:00Z") = .ok l' ∧
      GetState l' (auditKey (ascii "f") (ascii "2024-01-01T00:00:00Z")) =
        some (marshalAudit { ID := auditKey (ascii "f") (ascii "2024-01-01T00:00:00Z"),
                             FileID := ascii "f", UID := ascii "u", ProofHash := ascii "p1",
                             Mu := ascii "m1", Status := ascii "SUCCESS",
                             Timestamp := ascii "2024-01-01T00:00:00Z" }) ∧
      GetStateByRange l' (ascii "TAG_") (ascii "TAH_") =
        GetStateByRange [] (ascii "TAG_") (ascii "TAH_") ∧
      (∀ f, GetTagsForFile l' f = GetTagsForFile [] f) :=
  StoreAuditResult_ignores_tags [] (ascii "u") (ascii "f") (ascii "p1") (ascii "m1")
    (ascii "SUCCESS") (ascii "2024-01-01T00:00:00Z") (by decide)

/-! ## Tags: overwriting and retrieval -/

theorem length_filter_key_le_one {l : Ledger} (hs : Sorted l) (k : GoString) :
    (l.filter (fun e => decide (e.1 = k))).length ≤ 1 := by
  induction l with
  | nil => simp
  | cons e rest ih =>
    have hs' := List.pairwise_cons.1 hs
    by_cases hk : e.1 = k
    · have hnone : rest.filter (fun e => decide (e.1 = k)) = [] := by
        apply List.filter_eq_nil_iff.2
        intro x hx
        simp only [decide_eq_true_eq]
        intro hxk
        have := hs'.1 x hx
        rw [hk, hxk] at this
        exact strLt_irrefl _ this
      rw [List.filter_cons_of_pos (by simpa using hk), hnone]
      simp
    · rw [List.filter_cons_of_neg (by simpa using hk)]
      exact ih hs'.2

/-- C3 (as stated, refuted): a second `StoreBlockTags` for the same file and
block index replaces the anchored tag: `TagValue`, `UID` and `CreatedAt` all
change. -/
theorem StoreBlockTags_replaces_anchored_tag :
    GetTagsForFile
        (run [] [.storeBlockTags (ascii "u1") (ascii "f") (some [⟨0, (ascii "aa")⟩]) (ascii "2024-01-01T00:00:00Z")]) (ascii "f") =
      .ok [{ ID := ascii "TAG_f_0", UID := ascii "u1", FileID := ascii "f", BlockIndex := 0, TagValue := ascii "aa",
             CreatedAt := ascii "2024-01-01T00:00:00Z" }] ∧
    GetTagsForFile
        (run [] [.storeBlockTags (ascii "u1") (ascii "f") (some [⟨0, (ascii "aa")⟩]) (ascii "2024-01-01T00:00:00Z"),
                 .storeBlockTags (ascii "u2") (ascii "f") (some [⟨0, (ascii "bb")⟩]) (ascii "2024-01-02T00:00:00Z")]) (ascii "f") =
      .ok [{ ID := ascii "TAG_f_0", UID := ascii "u2", FileID := ascii "f", BlockIndex := 0, TagValue := ascii "bb",
             CreatedAt := ascii "2024-01-02T00:00:00Z" }] := by
  decide

/-- C3 (amended): tags are not immutable, `StoreBlockTags` writes without
reading. After a call on a reachable ledger the value stored under
`TAG_<f>_<i>` is what it was before when the call is for another file or has no
element for block `i`, and is the encoding of the record built from the call's
last element for block `i` (with the call's `uid` and clock reading) when the
call is for `f` and has one. In every reachable ledger at most one entry is
stored under `TAG_<f>_<i>`, that key belongs to no other pair of file and block
index, and what is stored is the encoding of the record most recently written
for the pair. -/
theorem StoreBlockTags_last_write_wins (cs : List Call) (uid fileID : GoString)
    (tags : List tagInput) (now f : GoString) (i : Int) :
    (∃ l', StoreBlockTags (run [] cs) uid fileID (some tags) now = .ok l' ∧
      ((fileID ≠ f ∨ ∀ t ∈ tags, t.BlockIndex ≠ i) →
        GetState l' (tagKey f i) = GetState (run [] cs) (tagKey f i)) ∧
      (∀ t, lastTag f i [.storeBlockTags uid fileID (some tags) now] = some t →
        GetState l' (tagKey f i) = some (marshalTag t))) ∧
    (GetState (run [] cs) (tagKey f i) = (lastTag f i cs).map marshalTag ∧
      ((run [] cs).filter (fun e => decide (e.1 = tagKey f i))).length ≤ 1 ∧
      ∀ (f2 : GoString) (i2 : Int), tagKey f2 i2 = tagKey f i → f2 = f ∧ i2 = i) := by
  refine ⟨⟨_, rfl, ?_, ?_⟩, ?_, ?_, ?_⟩
  · intro h
    rw [GetState_storeTagsLoop]
    have : (tags.map (fun t : tagInput =>
          ({ ID := tagKey fileID t.BlockIndex, UID := uid, FileID := fileID,
             BlockIndex := t.BlockIndex, TagValue := t.TagValue, CreatedAt := now } : TagRecord))).reverse.find?
          (fun t => decide (t.FileID = f ∧ t.BlockIndex = i)) = none := by
      apply List.find?_eq_none.2
      intro x hx
      simp only [List.mem_reverse, List.mem_map] at hx
      obtain ⟨t, ht, rfl⟩ := hx
      simp only [decide_eq_true_eq, not_and]
      intro hf
      rcases h with h | h
      · exact absurd hf h
      · exact h t ht
    rw [this]
  · intro t ht
    rw [GetState_storeTagsLoop]
    simp only [lastTag, tagWrites, List.append_nil] at ht
    rw [ht]
  · rw [GetState_run_tagKey]
    cases lastTag f i cs <;> simp [GetState]
  · exact length_filter_key_le_one (Inv_run cs [] Inv_nil).1 _
  · intro f2 i2 h
    exact tagKey_injective h

/-- C7 (the code at the failing input): after `StoreBlockTags` for the file
`\xff` with one element for block 0, the tag is stored under the key
`TAG_\xff_0` with `fileId` U+FFFD, `GetTagsForFile` for `\xff` returns no
record, and the record is returned for the file U+FFFD, for which nothing was
stored. -/
theorem GetTagsForFile_misses_file_not_utf8 :
    GetState
        (run [] [.storeBlockTags (ascii "u") [0xff] (some [⟨0, ascii "aa"⟩])
                   (ascii "2024-01-01T00:00:00Z")])
        (ascii "TAG_" ++ [0xff] ++ ascii "_0") =
      some (marshalTag { ID := ascii "TAG_" ++ [0xff] ++ ascii "_0", UID := ascii "u",
                         FileID := [0xff], BlockIndex := 0, TagValue := ascii "aa",
                         CreatedAt := ascii "2024-01-01T00:00:00Z" }) ∧
    GetTagsForFile
        (run [] [.storeBlockTags (ascii "u") [0xff] (some [⟨0, ascii "aa"⟩])
                   (ascii "2024-01-01T00:00:00Z")])
        [0xff] = .ok [] ∧
    GetTagsForFile
        (run [] [.storeBlockTags (ascii "u") [0xff] (some [⟨0, ascii "aa"⟩])
                   (ascii "2024-01-01T00:00:00Z")])
        [0xEF, 0xBF, 0xBD] =
      .ok [{ ID := ascii "TAG_" ++ [0xEF, 0xBF, 0xBD] ++ ascii "_0", UID := ascii "u",
             FileID := [0xEF, 0xBF, 0xBD], BlockIndex := 0, TagValue := ascii "aa",
             CreatedAt := ascii "2024-01-01T00:00:00Z" }] := by
  decide

/-! ## Crypto anchors -/

/-- An operation other than `CreateCryptoAnchor` leaves the value of every key
that starts with `ANCHOR_` as it was. -/
theorem GetState_invoke_anchorKey {l l' : Ledger} {c : Call}
    (hc : ∀ u d s m p n, c ≠ .createCryptoAnchor u d s m p n) (hok : invoke l c = .ok l')
    {k : GoString} (hk : startsWith (ascii "ANCHOR_") k) : GetState l' k = GetState l k := by
  have hin := ranges_of_anchor hk
  cases c with
  | createCryptoAnchor uid' dfp sign man pk now => exact absurd rfl (hc uid' dfp sign man pk now)
  | recordVerificationResult uid' vid status comment now =>
    simp only [invoke, RecordVerificationResult] at hok
    split_ifs at hok
    cases hok
    exact GetState_PutState_other _ _ _ _ (ne_of_not_inRange hin.1
      (ranges_of_ver (startsWith_verKey _ _)).1)
  | storeBlockTags uid' fileID tagsJson now =>
    cases tagsJson with
    | none => simp [invoke, StoreBlockTags] at hok
    | some tags =>
      simp only [invoke, StoreBlockTags, Except.ok.injEq] at hok
      rw [← hok]
      clear hok hc
      induction tags generalizing l with
      | nil => rfl
      | cons t ts ih =>
        simp only [storeTagsLoop]
        rw [ih]
        exact GetState_PutState_other _ _ _ _ (ne_of_not_inRange hin.2.1
          (ranges_of_tag (startsWith_tagKey _ _)).2.1)
  | storeAuditResult uid' fileID ph mu status now =>
    simp only [invoke, StoreAuditResult] at hok
    split_ifs at hok
    cases hok
    exact GetState_PutState_other _ _ _ _ (ne_of_not_inRange hin.2.2.1
      (ranges_of_audit (startsWith_auditKey _ _)).2.2.1)
  | logDownload uid' fileID userID allowed rh now =>
    simp only [invoke, LogDownload, Except.ok.injEq] at hok
    rw [← hok]
    exact GetState_PutState_other _ _ _ _ (ne_of_not_inRange hin.2.2.2
      (ranges_of_dl (startsWith_dlKey _ _ _)).2.2.2)

theorem GetState_commit_anchor (l : Ledger) (c : Call) (uid : GoString) (v : JObj)
    (h : GetState l (ascii "ANCHOR_" ++ uid) = some v) :
    GetState (commit l c) (ascii "ANCHOR_" ++ uid) = some v := by
  unfold commit
  cases hc : invoke l c with
  | error e => exact h
  | ok l' =>
    simp only
    by_cases hcr : ∃ u d s m p n, c = .createCryptoAnchor u d s m p n
    · obtain ⟨uid', dfp, sign, man, pk, now, rfl⟩ := hcr
      simp only [invoke, CreateCryptoAnchor] at hc
      split_ifs at hc with hex
      cases hc
      by_cases hk : (ascii "ANCHOR_") ++ uid = ascii "ANCHOR_" ++ uid'
      · rw [← hk] at hex
        simp [assetExists, h] at hex
      · rw [GetState_PutState_other _ _ _ _ hk]; exact h
    · rw [GetState_invoke_anchorKey (fun u d s m p n hcc => hcr ⟨u, d, s, m, p, n, hcc⟩) hc
        (startsWith_append _ _)]
      exact h

theorem GetState_run_anchor (uid : GoString) (v : JObj) (cs : List Call) : ∀ l : Ledger,
    GetState l (ascii "ANCHOR_" ++ uid) = some v → GetState (run l cs) (ascii "ANCHOR_" ++ uid) = some v := by
  induction cs with
  | nil => intro l h; exact h
  | cons c cs ih => intro l h; exact ih _ (GetState_commit_anchor l c uid v h)

/-- C10: a crypto anchor is write-once. When a value is stored under
`ANCHOR_<uid>`, `CreateCryptoAnchor` for that `uid` returns an error and the
transaction leaves the ledger as it was; an operation other than
`CreateCryptoAnchor` changes the value of no key that starts with `ANCHOR_`; and
once `CreateCryptoAnchor` has succeeded for `uid`, `GetCryptoAnchor` returns the
anchor it stored after every further sequence of transactions. -/
theorem CreateCryptoAnchor_write_once (l : Ledger) (uid dfp sign man pk now : GoString) :
    (GetState l (ascii "ANCHOR_" ++ uid) ≠ none →
      (∃ e, CreateCryptoAnchor l uid dfp sign man pk now = .error e) ∧
      commit l (.createCryptoAnchor uid dfp sign man pk now) = l) ∧
    (∀ (c : Call) (l' : Ledger) (k : GoString),
      (∀ u d s m p n, c ≠ .createCryptoAnchor u d s m p n) → invoke l c = .ok l' →
      startsWith (ascii "ANCHOR_") k → GetState l' k = GetState l k) ∧
    (∀ l', CreateCryptoAnchor l uid dfp sign man pk now = .ok l' →
      ∀ cs : List Call, GetCryptoAnchor (run l' cs) uid =
        .ok (marshalAnchor { UID := uid, DFPEnc := dfp, Sign := sign, Manufacturer := man,
                             VerifierPKPem := pk, CreatedAt := now })) := by
  refine ⟨?_, ?_, ?_⟩
  · intro h
    have hex : assetExists l (ascii "ANCHOR_" ++ uid) = true := by
      unfold assetExists
      cases hg : GetState l (ascii "ANCHOR_" ++ uid) with
      | none => exact absurd hg h
      | some v => rfl
    have herr : CreateCryptoAnchor l uid dfp sign man pk now =
        .error (ascii "anchor already exists for UID " ++ uid) := by
      simp [CreateCryptoAnchor, hex]
    exact ⟨⟨_, herr⟩, by simp [commit, invoke, herr]⟩
  · intro c l' k hc hok hk
    exact GetState_invoke_anchorKey hc hok hk
  · intro l' hok cs
    simp only [CreateCryptoAnchor] at hok
    split_ifs at hok
    cases hok
    have := GetState_run_anchor uid _ cs _ (GetState_PutState_same l (ascii "ANCHOR_" ++ uid)
      (marshalAnchor { UID := uid, DFPEnc := dfp, Sign := sign, Manufacturer := man,
                       VerifierPKPem := pk, CreatedAt := now }))
    simp [GetCryptoAnchor, this]


end Chaincode

namespace StorageNode

/-! ## The storage node -/

theorem storeLoop_eq (uid fileID : String) (blocks : List StoreRequestBlock) :
    ∀ store : List StoredBlock, storeLoop uid fileID blocks store =
      (store ++ (blocks.takeWhile (fun b => b.Data.isSome)).filterMap
          (fun b => b.Data.map (fun d =>
            ({ UID := uid, FileID := fileID, BlockIndex := b.BlockIndex, Data := d } :
              StoredBlock))),
        if blocks.all (fun b => b.Data.isSome) then 200 else 400) := by
  induction blocks with
  | nil => intro store; simp [storeLoop]
  | cons b rest ih =>
    intro store
    cases hb : b.Data with
    | none => simp [storeLoop, hb, List.takeWhile]
    | some data =>
      simp only [storeLoop, hb]
      rw [ih]
      simp [List.takeWhile, hb, List.filterMap_cons]

theorem length_filter_indicesLoop (sb : StoredBlock) (idx : Int) (indices : List Int) :
    ((indicesLoop sb indices).filter (fun b => decide (b.BlockIndex = idx))).length =
      if sb.BlockIndex = idx then indices.count idx else 0 := by
  induction indices with
  | nil => simp [indicesLoop]
  | cons j rest ih =>
    simp only [indicesLoop]
    by_cases hj : sb.BlockIndex = j
    · rw [if_pos hj]
      by_cases hi : j = idx
      · subst hi
        rw [List.filter_cons_of_pos (by simp), List.length_cons, ih]
        simp [hj]
      · rw [List.filter_cons_of_neg (by simpa using hi), ih]
        have : sb.BlockIndex ≠ idx := by rw [hj]; exact hi
        simp [this]
    · rw [if_neg hj, ih]
      by_cases hi : sb.BlockIndex = idx
      · have : j ≠ idx := by rw [← hi]; exact fun h => hj h.symm
        simp [hi, List.count_cons_of_ne this.symm]
      · simp [hi]

theorem length_filter_blocksLoop (req : GetBlocksRequest) (idx : Int) (store : List StoredBlock) :
    ((blocksLoop req store).filter (fun b => decide (b.BlockIndex = idx))).length =
      (store.filter (fun sb => decide (sb.FileID = req.FileID ∧ sb.BlockIndex = idx))).length *
        req.Indices.count idx := by
  induction store with
  | nil => simp [blocksLoop]
  | cons sb rest ih =>
    simp only [blocksLoop]
    by_cases hf : sb.FileID = req.FileID
    · rw [if_neg (by simpa using hf), List.filter_append, List.length_append, ih,
        length_filter_indicesLoop]
      by_cases hi : sb.BlockIndex = idx
      · rw [if_pos hi, List.filter_cons_of_pos (by simp [hf, hi]), List.length_cons]
        ring
      · rw [if_neg hi, List.filter_cons_of_neg (by simp [hi])]
        ring
    · rw [if_pos (by simpa using hf), ih, List.filter_cons_of_neg (by simp [hf])]

/-- C9 (as stated, refuted): two `/store` requests for block 0 of the same file
leave two entries with the same `(FileID, BlockIndex)` in the store, and
`handleGetBlocks` returns two blocks for the one requested index. -/
theorem handleStore_keeps_duplicates :
    serve [some { UID := "u", FileID := "f", Blocks := [{ BlockIndex := 0, Data := some [1] }] },
           some { UID := "u", FileID := "f", Blocks := [{ BlockIndex := 0, Data := some [2] }] }] =
      [{ UID := "u", FileID := "f", BlockIndex := 0, Data := [1] },
       { UID := "u", FileID := "f", BlockIndex := 0, Data := [2] }] ∧
    handleGetBlocks
        (serve [some { UID := "u", FileID := "f", Blocks := [{ BlockIndex := 0, Data := some [1] }] },
                some { UID := "u", FileID := "f", Blocks := [{ BlockIndex := 0, Data := some [2] }] }])
        (some { FileID := "f", Indices := [0] }) =
      (200, [{ BlockIndex := 0, Data := [1] }, { BlockIndex := 0, Data := [2] }]) := by
  decide

/-- C9 (amended): a stored block is never changed or removed: after any sequence
of `/store` requests a further `handleStore` keeps the store and appends behind
it one entry for each block of the request that comes before the first block
whose base64 does not decode (nothing when the body does not decode), and it
answers 200 when every block decoded and 400 otherwise. Uniqueness of
`(FileID, BlockIndex)` is not enforced, and `handleGetBlocks` returns for an
index as many blocks as the store holds entries of the file with that index,
times the occurrences of the index in the request. -/
theorem handleStore_appends_only (reqs : List (Option StoreRequest))
    (greq : GetBlocksRequest) (idx : Int) :
    handleStore (serve reqs) none = (serve reqs, 400) ∧
    (∀ r : StoreRequest, handleStore (serve reqs) (some r) =
      (serve reqs ++ (r.Blocks.takeWhile (fun b => b.Data.isSome)).filterMap
          (fun b => b.Data.map (fun d =>
            ({ UID := r.UID, FileID := r.FileID, BlockIndex := b.BlockIndex, Data := d } :
              StoredBlock))),
        if r.Blocks.all (fun b => b.Data.isSome) then 200 else 400)) ∧
    (((handleGetBlocks (serve reqs) (some greq)).2.filter
        (fun b => decide (b.BlockIndex = idx))).length =
      ((serve reqs).filter
        (fun sb => decide (sb.FileID = greq.FileID ∧ sb.BlockIndex = idx))).length *
        greq.Indices.count idx) := by
  refine ⟨rfl, ?_, ?_⟩
  · intro r
    exact storeLoop_eq r.UID r.FileID r.Blocks (serve reqs)
  · exact length_filter_blocksLoop greq idx (serve reqs)

end StorageNode
